import Mathlib

/-!
# Distributed Game of Life (`life_mpi.c`)

A shallow embedding of the MPI Game-of-Life program: the ghost-augmented
index `ind`, the per-worker grid `life_t`, the seed loader of `life_init`,
the local update `life_step` and the ring halo `exchange`, followed by the
properties established about them.

C `int` values are embedded as `Int` (no overflow); `/` and `%` of C are the
truncating `Int.tdiv` and `Int.tmod`.  A buffer is a `List Int`; a read
outside the buffer yields `0` and a write outside the buffer is dropped.
-/

namespace LifeMpi

/-! ## Grid storage -/

/-- The `ind(i, j)` macro, `((i + 1) * l->ny + ((j + l->ny) % l->ny))`, with
the height `l->ny` as explicit first argument and C's truncating `%`. -/
def ind (ny i j : Int) : Int :=
  (i + 1) * ny + Int.tmod (j + ny) ny

/-- The struct `life_t`: local width `nx`, height `ny`, the active buffer
`u0`, the inactive buffer `u1`, and the run parameters. -/
structure life_t where
  nx : Int
  ny : Int
  u0 : List Int
  u1 : List Int
  steps : Int
  save_steps : Int
deriving DecidableEq, Repr, Inhabited

/-- Read `u[k]`. -/
def rd (u : List Int) (k : Int) : Int :=
  if 0 ≤ k then u.getD k.toNat 0 else 0

/-- Write `u[k] = v`. -/
def wr (u : List Int) (k : Int) (v : Int) : List Int :=
  if 0 ≤ k then u.set k.toNat v else u

/-- The cell `l->u0[ind(i, j)]` of the active buffer. -/
def cell (l : life_t) (i j : Int) : Int :=
  rd l.u0 (ind l.ny i j)

/-! ## Step engine -/

/-- The neighbour sum `n` accumulated by `life_step` for the cell `(i, j)`,
in the order of the source. -/
def neighbours (l : life_t) (i j : Int) : Int :=
  0 + rd l.u0 (ind l.ny (i + 1) j)
    + rd l.u0 (ind l.ny (i + 1) (j + 1))
    + rd l.u0 (ind l.ny i (j + 1))
    + rd l.u0 (ind l.ny (i - 1) j)
    + rd l.u0 (ind l.ny (i - 1) (j - 1))
    + rd l.u0 (ind l.ny i (j - 1))
    + rd l.u0 (ind l.ny (i - 1) (j + 1))
    + rd l.u0 (ind l.ny (i + 1) (j - 1))

/-- The body of the inner loop of `life_step`: the writes into `u1` for the
cell `(i, j)`. -/
def step_cell (l : life_t) (u1 : List Int) (i j : Int) : List Int :=
  let n := neighbours l i j
  let u1 := wr u1 (ind l.ny i j) 0
  let u1 := if n = 3 ∧ rd l.u0 (ind l.ny i j) = 0 then wr u1 (ind l.ny i j) 1 else u1
  let u1 := if (n = 3 ∨ n = 2) ∧ rd l.u0 (ind l.ny i j) = 1 then wr u1 (ind l.ny i j) 1 else u1
  u1

/-- The two nested loops of `life_step`, `j` outer and `i` inner. -/
def step_loops (l : life_t) : List Int :=
  (List.range l.ny.toNat).foldl
    (fun u1 (j : Nat) =>
      (List.range l.nx.toNat).foldl (fun u1 (i : Nat) => step_cell l u1 (i : Int) (j : Int)) u1)
    l.u1

/-- The function `life_step`: fill `u1` from `u0`, then swap the buffers. -/
def life_step (l : life_t) : life_t :=
  let u1 := step_loops l
  { l with u0 := u1, u1 := l.u0 }

/-! ## Halo exchange

A family of workers is a `List life_t`; the worker of rank `r` is the entry
at position `r` and `size` is the length of the list. -/

/-- The `cnt` values of `u` starting at offset `off`: a send buffer. -/
def send_buf (u : List Int) (off cnt : Int) : List Int :=
  (List.range cnt.toNat).map (fun (k : Nat) => rd u (off + (k : Int)))

/-- Store at most `cnt` values of the message `msg` into `u` from offset `off`
on: a receive buffer. -/
def recv_buf (u : List Int) (off cnt : Int) (msg : List Int) : List Int :=
  u.mapIdx (fun (p : Nat) v =>
    if off ≤ (p : Int) ∧ (p : Int) < off + cnt ∧ (p : Int) < off + (msg.length : Int)
    then msg.getD ((p : Int) - off).toNat 0 else v)

/-- The first `MPI_Sendrecv` of `exchange` as seen by the worker `l` of rank
`rank`: it receives, at the start of `u0`, the `ny` values which its left
neighbour sends from `u0 + ind(nx - 1, 0)`. -/
def exchange_fst (ws : List life_t) (rank : Nat) (l : life_t) : life_t :=
  let size : Int := ws.length
  let left := Int.tmod (size + (rank : Int) - 1) size
  let s := ws.getD left.toNat l
  { l with u0 := recv_buf l.u0 0 l.ny (send_buf s.u0 (ind s.ny (s.nx - 1) 0) s.ny) }

/-- The second `MPI_Sendrecv` of `exchange` as seen by the worker `l` of rank
`rank`: it receives, at `u0 + ind(nx, 0)`, the `ny` values which its right
neighbour sends from `u0 + ind(0, 0)`. -/
def exchange_snd (ws : List life_t) (rank : Nat) (l : life_t) : life_t :=
  let size : Int := ws.length
  let right := Int.tmod ((rank : Int) + 1) size
  let s := ws.getD right.toNat l
  { l with u0 := recv_buf l.u0 (ind l.ny l.nx 0) l.ny (send_buf s.u0 (ind s.ny 0 0) s.ny) }

/-- The function `exchange`, run by every worker of the family: all workers
complete the first send-receive, then all complete the second. -/
def exchange (ws : List life_t) : List life_t :=
  let ws1 := ws.mapIdx (fun rank l => exchange_fst ws rank l)
  ws1.mapIdx (fun rank l => exchange_snd ws1 rank l)

/-! ## Partitioner and seed loading -/

/-- The local width assigned by `life_init`:
`l->nx / size + ((rank + 1) / size) * (l->nx % size)`. -/
def local_width (W size rank : Int) : Int :=
  Int.tdiv W size + Int.tdiv (rank + 1) size * Int.tmod W size

/-- The column a seed of global column `i` is mapped to by the body of the
`while` loop of `life_init`. -/
def map_col (fullWidth averageWidth size rank nx i : Int) : Int :=
  if i = fullWidth - 1 ∧ rank = 0 then -1
  else if i = 0 ∧ rank = size - 1 then nx
  else i - averageWidth * rank

/-- One iteration of the `while` loop of `life_init` for the seed `s = (i, j)`. -/
def load_seed (fullWidth averageWidth size rank : Int) (l : life_t) (s : Int × Int) : life_t :=
  let i := map_col fullWidth averageWidth size rank l.nx s.1
  if i ≥ -1 ∧ i ≤ l.nx then { l with u0 := wr l.u0 (ind l.ny i s.2) 1 } else l

/-- The function `life_init` for the worker `rank` of `size`, with the
scenario file given by its header (`steps`, `save_steps`, `nx`, `ny`) and its
list of seed cells. -/
def life_init (size rank : Int) (steps save_steps nx ny : Int) (seeds : List (Int × Int)) :
    life_t :=
  let fullWidth := nx
  let averageWidth := Int.tdiv nx size
  let nx := local_width nx size rank
  let l : life_t :=
    { nx := nx, ny := ny
      u0 := List.replicate ((nx + 2) * ny).toNat 0
      u1 := List.replicate ((nx + 2) * ny).toNat 0
      steps := steps, save_steps := save_steps }
  seeds.foldl (load_seed fullWidth averageWidth size rank) l

/-! ## Main loop -/

/-- One pass of the body of the `for` loop of `main` on every worker:
`life_step`, then `exchange`. -/
def round (ws : List life_t) : List life_t :=
  exchange (ws.map life_step)

/-- The family of workers after `life_init` on every rank. -/
def init_all (size : Nat) (steps save_steps nx ny : Int) (seeds : List (Int × Int)) :
    List life_t :=
  (List.range size).map (fun (rank : Nat) => life_init size rank steps save_steps nx ny seeds)

/-- The function `main` up to `life_free`: `life_init`, then `steps` rounds. -/
def main (size : Nat) (steps save_steps nx ny : Int) (seeds : List (Int × Int)) :
    List life_t :=
  Nat.iterate round steps.toNat (init_all size steps save_steps nx ny seeds)


/-! ## Auxiliary definitions -/

/-- The value `life_step` leaves in the cell `(i, j)` of `u1`. -/
def rule (l : life_t) (i j : Int) : Int :=
  if (neighbours l i j = 3 ∧ rd l.u0 (ind l.ny i j) = 0) ∨
      ((neighbours l i j = 3 ∨ neighbours l i j = 2) ∧ rd l.u0 (ind l.ny i j) = 1)
  then 1 else 0

/-- A worker grid of height `H`: at least one real column, and both buffers
of `(nx + 2) * ny` cells, as `life_init` allocates them. -/
def is_grid (H : Int) (l : life_t) : Prop :=
  1 ≤ l.nx ∧ l.ny = H ∧ l.u0.length = ((l.nx + 2) * l.ny).toNat ∧
    l.u1.length = ((l.nx + 2) * l.ny).toNat

instance (H : Int) (l : life_t) : Decidable (is_grid H l) := by
  unfold is_grid; infer_instance

/-- The worker of rank `r` in the family `ws`. -/
def worker (ws : List life_t) (r : Nat) : life_t :=
  ws.getD r default

/-- The global width: the sum of the local widths. -/
def total_width : List life_t → Int
  | [] => 0
  | l :: ls => l.nx + total_width ls

/-- The cell `(x, y)` of the real columns of the workers concatenated in rank
order. -/
def global_cell : List life_t → Int → Int → Int
  | [], _, _ => 0
  | l :: ls, x, y => if x < l.nx then cell l x y else global_cell ls (x - l.nx) y

/-- The global column at which the real columns of rank `r` start. -/
def offset (ws : List life_t) (r : Nat) : Int :=
  total_width (ws.take r)

/-- Ghost consistency: for every rank `r` and row `j`, the left ghost column
of `r` equals the rightmost real column of rank `(P + r - 1) mod P` and the
right ghost column of `r` equals the leftmost real column of rank
`(r + 1) mod P`. -/
def ghosts_consistent (ws : List life_t) : Prop :=
  ∀ r ∈ List.range ws.length, ∀ j ∈ List.range (worker ws r).ny.toNat,
    cell (worker ws r) (-1) (j : Int) =
        cell (worker ws ((ws.length + r - 1) % ws.length))
          ((worker ws ((ws.length + r - 1) % ws.length)).nx - 1) (j : Int) ∧
      cell (worker ws r) (worker ws r).nx (j : Int) =
        cell (worker ws ((r + 1) % ws.length)) 0 (j : Int)

instance (ws : List life_t) : Decidable (ghosts_consistent ws) := by
  unfold ghosts_consistent; infer_instance

/-- Every real cell of every active buffer is `0` or `1`. -/
def binary_cells (ws : List life_t) : Prop :=
  ∀ l ∈ ws, ∀ i ∈ List.range l.nx.toNat, ∀ j ∈ List.range l.ny.toNat,
    cell l (i : Int) (j : Int) = 0 ∨ cell l (i : Int) (j : Int) = 1

instance (ws : List life_t) : Decidable (binary_cells ws) := by
  unfold binary_cells; infer_instance

/-! ## Sequential Game of Life on a torus -/

/-- The offsets of the eight neighbours of a cell. -/
def moore : List (Int × Int) :=
  [(-1, -1), (-1, 0), (-1, 1), (0, -1), (0, 1), (1, -1), (1, 0), (1, 1)]

/-- The number of live cells among the eight neighbours of `(x, y)` on the
`W × H` torus. -/
def torus_count (W H : Int) (g : Int → Int → Bool) (x y : Int) : Nat :=
  moore.countP (fun d => g ((x + d.1) % W) ((y + d.2) % H))

/-- One generation of the Game of Life on the `W × H` torus: a dead cell with
exactly 3 live neighbours becomes alive, a live cell with 2 or 3 live
neighbours stays alive, every other cell is dead. -/
def torus_step (W H : Int) (g : Int → Int → Bool) (x y : Int) : Bool :=
  if g x y then decide (torus_count W H g x y = 2 ∨ torus_count W H g x y = 3)
  else decide (torus_count W H g x y = 3)

/-- The global grid held by the workers: the cell `(x, y)` is alive when the
concatenated real columns hold `1` there. -/
def global_grid (ws : List life_t) (x y : Int) : Bool :=
  decide (global_cell ws x y = 1)

/-! ## Specification-side definitions -/

/-- The neighbour sum as the specification words it: the sum of the eight
cells `(i + di, j + dj)`, `(di, dj) ≠ (0, 0)`, read at the storage position
`(i + di + 1) * height + ((j + dj) mod height)`. -/
def wrapped_sum (l : life_t) (i j : Int) : Int :=
  (moore.map (fun d => rd l.u0 ((i + d.1 + 1) * l.ny + (j + d.2) % l.ny))).sum

/-- The mapped column `i'` of a seed of global column `i` as the
specification words it: `-1` if `i = W-1` and `r = 0`; else `local_width` if
`i = 0` and `r = P-1`; else `i - (W/P)*r`, with C's division. -/
def mapped_column (W P r local_width i : Int) : Int :=
  if i = W - 1 ∧ r = 0 then -1
  else if i = 0 ∧ r = P - 1 then local_width
  else i - Int.tdiv W P * r

/-- The grid whose live cells are exactly the listed seeds. -/
def seed_grid (seeds : List (Int × Int)) (x y : Int) : Bool :=
  decide ((x, y) ∈ seeds)

/-- The grid after `n` generations of sequential Game of Life on the `W × H`
torus started from the seeds. -/
def sequential (W H : Int) (seeds : List (Int × Int)) (n : Nat) : Int → Int → Bool :=
  Nat.iterate (torus_step W H) n (seed_grid seeds)

/-- A family of two workers of height 2 and of widths 1 and 2 with consistent
ghost columns; the global grid has the columns `[1,0]`, `[0,1]`, `[1,1]`. -/
def example_ring : List life_t :=
  [ { nx := 1, ny := 2, u0 := [1, 1, 1, 0, 0, 1], u1 := [0, 0, 0, 0, 0, 0],
      steps := 1, save_steps := 1 },
    { nx := 2, ny := 2, u0 := [1, 0, 0, 1, 1, 1, 1, 0], u1 := [0, 0, 0, 0, 0, 0, 0, 0],
      steps := 1, save_steps := 1 } ]

/-- A worker grid of width 2 and height 2 with an empty active buffer. -/
def example_grid : life_t :=
  { nx := 2, ny := 2, u0 := [0, 0, 0, 0, 0, 0, 0, 0], u1 := [0, 0, 0, 0, 0, 0, 0, 0],
    steps := 1, save_steps := 1 }

/-! ## Patterns on a worker grid -/

/-- Every cell of the active buffer, ghost columns included, holds the value
given by `f`. -/
def pattern (l : life_t) (f : Int → Int → Int) : Prop :=
  ∀ i ∈ List.range (l.nx + 2).toNat, ∀ r ∈ List.range l.ny.toNat,
    cell l ((i : Int) - 1) (r : Int) = f ((i : Int) - 1) (r : Int)

instance (l : life_t) (f : Int → Int → Int) : Decidable (pattern l f) := by
  unfold pattern; infer_instance

/-- Every real cell of the active buffer holds the value given by `f`. -/
def real_pattern (l : life_t) (f : Int → Int → Int) : Prop :=
  ∀ i ∈ List.range l.nx.toNat, ∀ r ∈ List.range l.ny.toNat,
    cell l (i : Int) (r : Int) = f (i : Int) (r : Int)

instance (l : life_t) (f : Int → Int → Int) : Decidable (real_pattern l f) := by
  unfold real_pattern; infer_instance

/-- Both ghost columns of the inactive buffer are dead. -/
def inactive_ghosts_dead (l : life_t) : Prop :=
  ∀ r ∈ List.range l.ny.toNat,
    rd l.u1 (ind l.ny (-1) (r : Int)) = 0 ∧ rd l.u1 (ind l.ny l.nx (r : Int)) = 0

instance (l : life_t) : Decidable (inactive_ghosts_dead l) := by
  unfold inactive_ghosts_dead; infer_instance

/-- Every entry of both buffers is `0` or `1`. -/
def binary_buffers (l : life_t) : Prop :=
  (∀ v ∈ l.u0, v = 0 ∨ v = 1) ∧ (∀ v ∈ l.u1, v = 0 ∨ v = 1)

instance (l : life_t) : Decidable (binary_buffers l) := by
  unfold binary_buffers; infer_instance

/-- The scenario of the end-to-end test: the seeds `(1,1)`, `(1,2)`, `(1,3)`
as `(col, row)`. -/
def scenario_seeds : List (Int × Int) :=
  [(1, 1), (1, 2), (1, 3)]

/-- A worker grid of width 1 and height 2 whose buffers hold values other
than 0 and 1. -/
def non_binary_grid : life_t :=
  { nx := 1, ny := 2, u0 := [2, 0, 1, 1, 0, 5], u1 := [7, 8, 9, 9, 3, 4],
    steps := 1, save_steps := 1 }

/-- The value 1 at `x = p`, else 0. -/
def at_one (p x : Int) : Int :=
  if x = p then 1 else 0

/-- The value 1 at `x = p` and at `x = q`, else 0. -/
def at_two (p q x : Int) : Int :=
  if x = p ∨ x = q then 1 else 0

/-- The value 1 at `x = p`, at `x = q` and at `x = s`, else 0. -/
def at_three (p q s x : Int) : Int :=
  if x = p ∨ x = q ∨ x = s then 1 else 0

/-- The 2x2 block with the columns `c`, `c + 1` and the rows `j`,
`(j + 1) mod H`. -/
def block_pattern (c j H : Int) (i r : Int) : Int :=
  at_two c (c + 1) i * at_two j ((j + 1) % H) r

/-- The blinker lying in the row `j`, in the columns `c - 1`, `c`, `c + 1`. -/
def row_blinker (c j : Int) (i r : Int) : Int :=
  at_three (c - 1) c (c + 1) i * at_one j r

/-- The blinker standing in the column `c`, in the rows `(j - 1) mod H`, `j`,
`(j + 1) mod H`. -/
def column_blinker (c j H : Int) (i r : Int) : Int :=
  at_one c i * at_three ((j - 1) % H) j ((j + 1) % H) r

/-- A grid of width 4 and height 2 holding the block of the columns 1, 2 and
of both rows. -/
def block_grid_low : life_t :=
  { nx := 4, ny := 2, u0 := [0, 0, 0, 0, 1, 1, 1, 1, 0, 0, 0, 0],
    u1 := [0, 0, 0, 0, 0, 0, 0, 0, 0, 0, 0, 0], steps := 1, save_steps := 1 }

/-- A grid of width 4 and height 3 holding the block of the columns 1, 2 and
of the rows 0, 1. -/
def block_grid : life_t :=
  { nx := 4, ny := 3, u0 := [0, 0, 0, 0, 0, 0, 1, 1, 0, 1, 1, 0, 0, 0, 0, 0, 0, 0],
    u1 := [0, 0, 0, 0, 0, 0, 0, 0, 0, 0, 0, 0, 0, 0, 0, 0, 0, 0], steps := 1, save_steps := 1 }

/-- A grid of width 5 and height 3 holding the blinker of the row 1 and of
the columns 1, 2, 3. -/
def blinker_grid_low : life_t :=
  { nx := 5, ny := 3,
    u0 := [0, 0, 0, 0, 0, 0, 0, 1, 0, 0, 1, 0, 0, 1, 0, 0, 0, 0, 0, 0, 0],
    u1 := [0, 0, 0, 0, 0, 0, 0, 0, 0, 0, 0, 0, 0, 0, 0, 0, 0, 0, 0, 0, 0],
    steps := 1, save_steps := 1 }

/-- A grid of width 5 and height 4 holding the blinker of the row 1 and of
the columns 1, 2, 3. -/
def blinker_grid : life_t :=
  { nx := 5, ny := 4,
    u0 := [0, 0, 0, 0, 0, 0, 0, 0, 0, 1, 0, 0, 0, 1, 0, 0, 0, 1, 0, 0, 0, 0, 0, 0, 0, 0, 0, 0],
    u1 := [0, 0, 0, 0, 0, 0, 0, 0, 0, 0, 0, 0, 0, 0, 0, 0, 0, 0, 0, 0, 0, 0, 0, 0, 0, 0, 0, 0],
    steps := 1, save_steps := 1 }

/-! ## Index arithmetic -/

theorem ind_eq_emod (ny i j : Int) (hny : 0 < ny) (hj : -ny ≤ j) :
    ind ny i j = (i + 1) * ny + (j + ny) % ny := by
  unfold ind
  rw [Int.tmod_eq_emod (by omega) (by omega)]

theorem ind_row (ny i j : Int) (hj0 : 0 ≤ j) (hj : j < ny) :
    ind ny i j = (i + 1) * ny + j := by
  rw [ind_eq_emod ny i j (by omega) (by omega), Int.add_emod_self, Int.emod_eq_of_lt hj0 hj]

theorem ind_row_wrap (ny i j : Int) (hny : 0 < ny) (hj : -ny ≤ j) :
    ind ny i j = (i + 1) * ny + j % ny := by
  rw [ind_eq_emod ny i j hny hj, Int.add_emod_self]

theorem ind_mod (ny i j : Int) (hny : 0 < ny) (hj : -ny ≤ j) :
    ind ny i j = ind ny i (j % ny) := by
  rw [ind_row_wrap ny i j hny hj, ind_row ny i (j % ny) (Int.emod_nonneg _ (by omega))
    (Int.emod_lt_of_pos _ hny)]

/-! ## Buffer reads and writes -/

theorem length_wr (u : List Int) (k v : Int) : (wr u k v).length = u.length := by
  unfold wr; split <;> simp

theorem rd_wr (u : List Int) (k v p : Int) :
    rd (wr u k v) p = if p = k ∧ 0 ≤ k ∧ k < u.length then v else rd u p := by
  unfold rd wr
  by_cases hk : 0 ≤ k
  · by_cases hp : 0 ≤ p
    · simp only [hk, hp, if_true, List.getD_eq_getElem?_getD, List.getElem?_set]
      by_cases hkp : k.toNat = p.toNat
      · have hpk : p = k := by omega
        subst hpk
        by_cases hl : p.toNat < u.length
        · have : p < (u.length : Int) := by omega
          simp [hl, this]
        · have : ¬ p < (u.length : Int) := by omega
          simp [hl, this, List.getElem?_eq_none (by omega : u.length ≤ p.toNat)]
      · have hpk : ¬ p = k := by omega
        simp [hkp, hpk]
    · have hpk : ¬ p = k := by omega
      simp [hk, hp, hpk]
  · simp [hk]

theorem wr_wr (u : List Int) (k v w : Int) : wr (wr u k v) k w = wr u k w := by
  unfold wr; split <;> simp

theorem length_foldl_wr {α : Type} (f g : α → Int) (ks : List α) (u : List Int) :
    (ks.foldl (fun u k => wr u (f k) (g k)) u).length = u.length := by
  induction ks generalizing u with
  | nil => rfl
  | cons k ks ih => simp [List.foldl_cons, ih, length_wr]

theorem rd_foldl_wr_of_not_mem {α : Type} (f g : α → Int) (ks : List α) (u : List Int) (p : Int)
    (h : ∀ k ∈ ks, f k ≠ p) :
    rd (ks.foldl (fun u k => wr u (f k) (g k)) u) p = rd u p := by
  induction ks generalizing u with
  | nil => rfl
  | cons k ks ih =>
    rw [List.foldl_cons, ih _ (fun k' hk' => h k' (List.mem_cons_of_mem _ hk')), rd_wr]
    have := h k (List.mem_cons_self _ _)
    rw [if_neg (fun hc => this hc.1.symm)]

theorem rd_foldl_wr_of_mem {α : Type} (f g : α → Int) (ks : List α) (u : List Int) (p v : Int)
    (hex : ∃ k ∈ ks, f k = p) (h0 : 0 ≤ p) (hlen : p < u.length)
    (hval : ∀ k ∈ ks, f k = p → g k = v) :
    rd (ks.foldl (fun u k => wr u (f k) (g k)) u) p = v := by
  induction ks generalizing u with
  | nil => simp at hex
  | cons k0 ks ih =>
    rw [List.foldl_cons]
    by_cases hlater : ∃ k ∈ ks, f k = p
    · exact ih _ hlater (by rw [length_wr]; exact hlen)
        (fun k hk => hval k (List.mem_cons_of_mem _ hk))
    · have hnone : ∀ k ∈ ks, f k ≠ p := fun k hk hfk => hlater ⟨k, hk, hfk⟩
      rw [rd_foldl_wr_of_not_mem f g ks _ p hnone, rd_wr]
      obtain ⟨k, hk, hfk⟩ := hex
      rcases List.mem_cons.mp hk with h | h
      · subst h
        rw [if_pos ⟨hfk.symm, by omega, by omega⟩]
        exact hval k (List.mem_cons_self _ _) hfk
      · exact absurd hfk (hnone k h)

theorem foldl_nested {α β γ : Type} (F : γ → α → β → γ) (js : List β) (is : List α) (u : γ) :
    js.foldl (fun u j => is.foldl (fun u i => F u i j) u) u =
      (js.flatMap (fun j => is.map (fun i => (i, j)))).foldl (fun u p => F u p.1 p.2) u := by
  induction js generalizing u with
  | nil => rfl
  | cons j js ih =>
    rw [List.foldl_cons, ih, List.flatMap_cons, List.foldl_append, List.foldl_map]

/-! ## The step engine, cell by cell -/

theorem step_cell_eq (l : life_t) (u1 : List Int) (i j : Int) :
    step_cell l u1 i j = wr u1 (ind l.ny i j) (rule l i j) := by
  unfold step_cell rule
  generalize neighbours l i j = n
  generalize rd l.u0 (ind l.ny i j) = c
  generalize ind l.ny i j = k
  show (if (n = 3 ∨ n = 2) ∧ c = 1
      then wr (if n = 3 ∧ c = 0 then wr (wr u1 k 0) k 1 else wr u1 k 0) k 1
      else (if n = 3 ∧ c = 0 then wr (wr u1 k 0) k 1 else wr u1 k 0)) = _
  by_cases h1 : n = 3 ∧ c = 0
  · have h2 : ¬ ((n = 3 ∨ n = 2) ∧ c = 1) := by omega
    rw [if_pos h1, if_neg h2, if_pos (Or.inl h1), wr_wr]
  · by_cases h2 : (n = 3 ∨ n = 2) ∧ c = 1
    · rw [if_neg h1, if_pos h2, if_pos (Or.inr h2), wr_wr]
    · rw [if_neg h1, if_neg h2, if_neg (by tauto)]

theorem step_loops_eq (l : life_t) :
    step_loops l =
      ((List.range l.ny.toNat).flatMap
          (fun j => (List.range l.nx.toNat).map (fun i => (i, j)))).foldl
        (fun u p => wr u (ind l.ny (p.1 : Int) (p.2 : Int)) (rule l (p.1 : Int) (p.2 : Int)))
        l.u1 := by
  unfold step_loops
  rw [← foldl_nested (fun u (i : Nat) (j : Nat) => wr u (ind l.ny (i : Int) (j : Int))
    (rule l (i : Int) (j : Int)))]
  simp only [step_cell_eq]

theorem mem_real_cells (nx ny : Nat) (p : Nat × Nat) :
    p ∈ (List.range ny).flatMap (fun j => (List.range nx).map (fun i => (i, j))) ↔
      p.1 < nx ∧ p.2 < ny := by
  obtain ⟨a, b⟩ := p
  simp only [List.mem_flatMap, List.mem_range, List.mem_map, Prod.mk.injEq]
  constructor
  · rintro ⟨j, hj, i, hi, rfl, rfl⟩; exact ⟨hi, hj⟩
  · rintro ⟨hi, hj⟩; exact ⟨b, hj, a, hi, rfl, rfl⟩

theorem ind_inj (ny a b i j : Int) (hb0 : 0 ≤ b) (hb : b < ny) (hj0 : 0 ≤ j) (hj : j < ny)
    (h : ind ny a b = ind ny i j) : a = i ∧ b = j := by
  rw [ind_row ny a b hb0 hb, ind_row ny i j hj0 hj] at h
  have hai : a = i := by
    rcases lt_trichotomy a i with hlt | heq | hgt
    · have : (a + 2) * ny ≤ (i + 1) * ny :=
        Int.mul_le_mul_of_nonneg_right (by omega) (by omega)
      have : (a + 2) * ny = (a + 1) * ny + ny := by ring
      omega
    · exact heq
    · have : (i + 2) * ny ≤ (a + 1) * ny :=
        Int.mul_le_mul_of_nonneg_right (by omega) (by omega)
      have : (i + 2) * ny = (i + 1) * ny + ny := by ring
      omega
  subst hai
  exact ⟨rfl, by omega⟩

theorem ind_real_bounds (nx ny i j : Int) (hi0 : -1 ≤ i) (hi : i ≤ nx) (hj0 : 0 ≤ j)
    (hj : j < ny) : 0 ≤ ind ny i j ∧ ind ny i j < (nx + 2) * ny := by
  rw [ind_row ny i j hj0 hj]
  have h1 : 0 ≤ (i + 1) * ny := Int.mul_nonneg (by omega) (by omega)
  have h2 : (i + 2) * ny ≤ (nx + 2) * ny :=
    Int.mul_le_mul_of_nonneg_right (by omega) (by omega)
  have h3 : (i + 2) * ny = (i + 1) * ny + ny := by ring
  exact ⟨by omega, by omega⟩

theorem length_step_loops (l : life_t) : (step_loops l).length = l.u1.length := by
  rw [step_loops_eq, length_foldl_wr (fun p : Nat × Nat => ind l.ny (p.1 : Int) (p.2 : Int))
    (fun p : Nat × Nat => rule l (p.1 : Int) (p.2 : Int))]

theorem rd_step_loops (l : life_t) (i j : Int) (hi0 : 0 ≤ i) (hi : i < l.nx) (hj0 : 0 ≤ j)
    (hj : j < l.ny) (hlen : l.u1.length = ((l.nx + 2) * l.ny).toNat) :
    rd (step_loops l) (ind l.ny i j) = rule l i j := by
  rw [step_loops_eq]
  have hb := ind_real_bounds l.nx l.ny i j (by omega) (by omega) hj0 hj
  apply rd_foldl_wr_of_mem (fun p : Nat × Nat => ind l.ny (p.1 : Int) (p.2 : Int))
    (fun p : Nat × Nat => rule l (p.1 : Int) (p.2 : Int))
  · refine ⟨(i.toNat, j.toNat), (mem_real_cells _ _ _).mpr ⟨by simp; omega, by simp; omega⟩, ?_⟩
    simp only [Int.toNat_of_nonneg hi0, Int.toNat_of_nonneg hj0]
  · exact hb.1
  · rw [hlen]; omega
  · rintro ⟨a, b⟩ hmem hab
    have hm := (mem_real_cells _ _ _).mp hmem
    simp only at hm hab
    obtain ⟨rfl, rfl⟩ := ind_inj l.ny a b i j (by omega) (by omega) hj0 hj hab
    rfl

/-! ## The halo exchange, cell by cell -/

theorem col_block_lt (H i k j : Int) (hik : i < k) (hj : j < H) (hH : 0 < H) :
    (i + 1) * H + j < (k + 1) * H := by
  have h1 : (i + 2) * H ≤ (k + 1) * H := Int.mul_le_mul_of_nonneg_right (by omega) (by omega)
  have h2 : (i + 2) * H = (i + 1) * H + H := by ring
  omega

theorem length_send_buf (u : List Int) (off cnt : Int) :
    (send_buf u off cnt).length = cnt.toNat := by
  simp [send_buf]

theorem getD_send_buf (u : List Int) (off cnt : Int) (k : Nat) (hk : k < cnt.toNat) :
    (send_buf u off cnt).getD k 0 = rd u (off + (k : Int)) := by
  simp [send_buf, List.getElem?_map, List.getElem?_range hk]

theorem length_recv_buf (u : List Int) (off cnt : Int) (msg : List Int) :
    (recv_buf u off cnt msg).length = u.length := by
  simp [recv_buf]

theorem rd_recv_buf (u : List Int) (off cnt : Int) (msg : List Int) (p : Int) :
    rd (recv_buf u off cnt msg) p =
      if 0 ≤ p ∧ p < u.length ∧ off ≤ p ∧ p < off + cnt ∧ p < off + (msg.length : Int)
      then msg.getD (p - off).toNat 0 else rd u p := by
  unfold rd recv_buf
  by_cases hp : 0 ≤ p
  · by_cases hl : p.toNat < u.length
    · have hl2 : p < (u.length : Int) := by omega
      simp only [hp, hl2, true_and, if_true, List.getD_eq_getElem?_getD, List.getElem?_mapIdx,
        List.getElem?_eq_getElem hl, Option.map_some', Option.getD_some,
        Int.toNat_of_nonneg hp]
    · have hl2 : ¬ p < (u.length : Int) := by omega
      simp [hp, hl2, List.getElem?_eq_none (by omega : u.length ≤ p.toNat)]
  · simp [hp]

theorem exchange_fst_ghost (ws : List life_t) (rank : Nat) (l s : life_t) (H j : Int)
    (hs : ws.getD (Int.tmod ((ws.length : Int) + (rank : Int) - 1) ws.length).toNat l = s)
    (hl : is_grid H l) (hsg : is_grid H s) (hj0 : 0 ≤ j) (hj : j < H) :
    cell (exchange_fst ws rank l) (-1) j = cell s (s.nx - 1) j := by
  obtain ⟨hnx, hny, hlen, -⟩ := hl
  obtain ⟨hsnx, hsny, -, -⟩ := hsg
  have hb := ind_real_bounds l.nx l.ny (-1) j (by omega) (by omega) hj0 (by omega)
  unfold cell exchange_fst
  simp only [hs]
  rw [rd_recv_buf, length_send_buf, hny, hsny, ind_row H (-1) j hj0 hj,
    ind_row H (s.nx - 1) j hj0 hj, ind_row H (s.nx - 1) 0 (by omega) (by omega)]
  rw [hny, ind_row H (-1) j hj0 hj] at hb
  rw [hny] at hlen
  have e : (-1 + 1) * H + j = j := by ring
  rw [e] at hb ⊢
  rw [if_pos ⟨by omega, by omega, by omega, by omega, by omega⟩,
    getD_send_buf _ _ _ _ (by omega)]
  congr 1
  have : ((j - 0).toNat : Int) = j := by omega
  rw [this]; ring

theorem exchange_fst_other (ws : List life_t) (rank : Nat) (l : life_t) (H i j : Int)
    (hl : is_grid H l) (hi : 0 ≤ i) (hj0 : 0 ≤ j) (hj : j < H) :
    cell (exchange_fst ws rank l) i j = cell l i j := by
  obtain ⟨hnx, hny, hlen, -⟩ := hl
  unfold cell exchange_fst
  simp only
  rw [rd_recv_buf, hny, ind_row H i j hj0 hj]
  have : 0 ≤ i * H := Int.mul_nonneg hi (by omega)
  have e : (i + 1) * H = i * H + H := by ring
  rw [if_neg (fun h => by omega)]

theorem exchange_snd_ghost (ws : List life_t) (rank : Nat) (l s : life_t) (H j : Int)
    (hs : ws.getD (Int.tmod ((rank : Int) + 1) ws.length).toNat l = s)
    (hl : is_grid H l) (hsg : is_grid H s) (hj0 : 0 ≤ j) (hj : j < H) :
    cell (exchange_snd ws rank l) l.nx j = cell s 0 j := by
  obtain ⟨hnx, hny, hlen, -⟩ := hl
  obtain ⟨hsnx, hsny, -, -⟩ := hsg
  have hb := ind_real_bounds l.nx l.ny l.nx j (by omega) (by omega) hj0 (by omega)
  unfold cell exchange_snd
  simp only [hs]
  rw [rd_recv_buf, length_send_buf, hny, hsny, ind_row H l.nx j hj0 hj,
    ind_row H 0 j hj0 hj, ind_row H l.nx 0 (by omega) (by omega),
    ind_row H 0 0 (by omega) (by omega)]
  rw [hny, ind_row H l.nx j hj0 hj] at hb
  rw [hny] at hlen
  rw [if_pos ⟨by omega, by omega, by omega, by omega, by omega⟩,
    getD_send_buf _ _ _ _ (by omega)]
  congr 1
  have : (((l.nx + 1) * H + j - ((l.nx + 1) * H + 0)).toNat : Int) = j := by omega
  rw [this]; ring

theorem exchange_snd_other (ws : List life_t) (rank : Nat) (l : life_t) (H i j : Int)
    (hl : is_grid H l) (hi : i < l.nx) (hj0 : 0 ≤ j) (hj : j < H) :
    cell (exchange_snd ws rank l) i j = cell l i j := by
  obtain ⟨hnx, hny, hlen, -⟩ := hl
  unfold cell exchange_snd
  simp only
  rw [rd_recv_buf, hny, ind_row H i j hj0 hj, ind_row H l.nx 0 (by omega) (by omega)]
  have := col_block_lt H i l.nx j hi hj (by omega)
  rw [if_neg (fun h => by omega)]

theorem is_grid_exchange_fst (ws : List life_t) (rank : Nat) (l : life_t) (H : Int)
    (hl : is_grid H l) : is_grid H (exchange_fst ws rank l) := by
  obtain ⟨hnx, hny, hlen, hlen1⟩ := hl
  exact ⟨hnx, hny, by simp only [exchange_fst, length_recv_buf]; exact hlen, hlen1⟩

theorem is_grid_exchange_snd (ws : List life_t) (rank : Nat) (l : life_t) (H : Int)
    (hl : is_grid H l) : is_grid H (exchange_snd ws rank l) := by
  obtain ⟨hnx, hny, hlen, hlen1⟩ := hl
  exact ⟨hnx, hny, by simp only [exchange_snd, length_recv_buf]; exact hlen, hlen1⟩

/-! ## The ring of workers -/

theorem left_rank (P r : Nat) (hr : r < P) :
    (Int.tmod ((P : Int) + (r : Int) - 1) P).toNat = (P + r - 1) % P := by
  have h : ((P : Int) + (r : Int) - 1) = ((P + r - 1 : Nat) : Int) := by omega
  rw [h, Int.tmod_eq_emod (Int.ofNat_zero_le _) (Int.ofNat_zero_le _), ← Int.natCast_mod,
    Int.toNat_natCast]

theorem right_rank (P r : Nat) :
    (Int.tmod ((r : Int) + 1) P).toNat = (r + 1) % P := by
  have h : ((r : Int) + 1) = ((r + 1 : Nat) : Int) := by omega
  rw [h, Int.tmod_eq_emod (Int.ofNat_zero_le _) (Int.ofNat_zero_le _), ← Int.natCast_mod,
    Int.toNat_natCast]

theorem getD_mapIdx (f : Nat → life_t → life_t) (ws : List life_t) (r : Nat)
    (hr : r < ws.length) (d : life_t) :
    (ws.mapIdx f).getD r d = f r (ws.getD r d) := by
  simp [List.getD_eq_getElem?_getD, List.getElem?_mapIdx, List.getElem?_eq_getElem hr]

theorem getD_irrel (ws : List life_t) (r : Nat) (hr : r < ws.length) (d e : life_t) :
    ws.getD r d = ws.getD r e := by
  simp [List.getD_eq_getElem?_getD, List.getElem?_eq_getElem hr]

theorem getD_mem (ws : List life_t) (r : Nat) (hr : r < ws.length) (d : life_t) :
    ws.getD r d ∈ ws := by
  rw [List.getD_eq_getElem?_getD, List.getElem?_eq_getElem hr, Option.getD_some]
  exact List.getElem_mem hr

theorem length_exchange (ws : List life_t) : (exchange ws).length = ws.length := by
  simp [exchange]

theorem getD_exchange (ws : List life_t) (r : Nat) (hr : r < ws.length) (d : life_t) :
    (exchange ws).getD r d =
      exchange_snd (ws.mapIdx (fun rank l => exchange_fst ws rank l)) r
        (exchange_fst ws r (ws.getD r d)) := by
  unfold exchange
  simp only
  rw [getD_mapIdx _ _ r (by simpa using hr), getD_mapIdx _ _ r hr]

theorem exchange_cells (ws : List life_t) (H : Int)
    (hws : ∀ l ∈ ws, is_grid H l) (r : Nat) (hr : r < ws.length) (j : Int) (hj0 : 0 ≤ j)
    (hj : j < H) :
    is_grid H (worker (exchange ws) r) ∧
      (worker (exchange ws) r).nx = (worker ws r).nx ∧
      (worker (exchange ws) r).u1 = (worker ws r).u1 ∧
      cell (worker (exchange ws) r) (-1) j =
        cell (worker ws ((ws.length + r - 1) % ws.length))
          ((worker ws ((ws.length + r - 1) % ws.length)).nx - 1) j ∧
      cell (worker (exchange ws) r) (worker ws r).nx j =
        cell (worker ws ((r + 1) % ws.length)) 0 j ∧
      ∀ i : Int, 0 ≤ i → i < (worker ws r).nx →
        cell (worker (exchange ws) r) i j = cell (worker ws r) i j := by
  have hP : 0 < ws.length := by omega
  have hleft : (ws.length + r - 1) % ws.length < ws.length := Nat.mod_lt _ hP
  have hright : (r + 1) % ws.length < ws.length := Nat.mod_lt _ hP
  have hl : is_grid H (worker ws r) := hws _ (getD_mem ws r hr _)
  have hL : is_grid H (worker ws ((ws.length + r - 1) % ws.length)) :=
    hws _ (getD_mem ws _ hleft _)
  have hR : is_grid H (worker ws ((r + 1) % ws.length)) := hws _ (getD_mem ws _ hright _)
  have h1 := is_grid_exchange_fst ws r _ H hl
  unfold worker at *
  rw [getD_exchange ws r hr]
  refine ⟨is_grid_exchange_snd _ r _ H h1, rfl, rfl, ?_, ?_, ?_⟩
  · rw [exchange_snd_other _ r _ H (-1) j h1 (by have := h1.1; omega) hj0 hj]
    apply exchange_fst_ghost ws r _ _ H j _ hl hL hj0 hj
    rw [left_rank _ _ hr]
    exact getD_irrel ws _ hleft _ _
  · have e := exchange_snd_ghost (ws.mapIdx (fun rank l => exchange_fst ws rank l)) r
      (exchange_fst ws r (ws.getD r default))
      (exchange_fst ws ((r + 1) % ws.length) (ws.getD ((r + 1) % ws.length) default)) H j
      (by
        rw [List.length_mapIdx, right_rank, getD_mapIdx _ _ _ hright]
        exact congrArg _ (getD_irrel ws _ hright _ _))
      h1 (is_grid_exchange_fst ws _ _ H hR) hj0 hj
    rw [show (exchange_fst ws r (ws.getD r default)).nx = (ws.getD r default).nx from rfl] at e
    rw [e, exchange_fst_other ws _ _ H 0 j hR (le_refl _) hj0 hj]
  · intro i hi0 hi
    rw [exchange_snd_other _ r _ H i j h1 hi hj0 hj, exchange_fst_other ws r _ H i j hl hi0 hj0 hj]

/-! ## The global grid assembled from the workers -/

theorem total_width_nonneg (ws : List life_t) (h : ∀ l ∈ ws, 0 ≤ l.nx) :
    0 ≤ total_width ws := by
  induction ws with
  | nil => simp [total_width]
  | cons l ls ih =>
    have h1 := h l (List.mem_cons_self _ _)
    have h2 := ih (fun l hl => h l (List.mem_cons_of_mem _ hl))
    simp only [total_width]; omega

theorem offset_zero (ws : List life_t) : offset ws 0 = 0 := by
  simp [offset, total_width]

theorem offset_length (ws : List life_t) : offset ws ws.length = total_width ws := by
  simp [offset]

theorem offset_cons_succ (l : life_t) (ls : List life_t) (r : Nat) :
    offset (l :: ls) (r + 1) = l.nx + offset ls r := by
  simp [offset, total_width]

theorem worker_cons_succ (l : life_t) (ls : List life_t) (r : Nat) :
    worker (l :: ls) (r + 1) = worker ls r := by
  simp [worker]

theorem worker_cons_zero (l : life_t) (ls : List life_t) : worker (l :: ls) 0 = l := by
  simp [worker]

theorem offset_succ (ws : List life_t) (r : Nat) (hr : r < ws.length) :
    offset ws (r + 1) = offset ws r + (worker ws r).nx := by
  induction ws generalizing r with
  | nil => simp at hr
  | cons l ls ih =>
    cases r with
    | zero => simp [offset_cons_succ, offset_zero, worker_cons_zero]
    | succ r =>
      rw [offset_cons_succ, offset_cons_succ, worker_cons_succ,
        ih r (by simpa using hr)]
      ring

theorem offset_nonneg (ws : List life_t) (h : ∀ l ∈ ws, 0 ≤ l.nx) (r : Nat) :
    0 ≤ offset ws r :=
  total_width_nonneg _ (fun l hl => h l (List.mem_of_mem_take hl))

theorem offset_le_total (ws : List life_t) (h : ∀ l ∈ ws, 0 ≤ l.nx) (r : Nat) :
    offset ws r ≤ total_width ws := by
  induction ws generalizing r with
  | nil => simp [offset]
  | cons l ls ih =>
    cases r with
    | zero =>
      rw [offset_zero]; exact total_width_nonneg _ h
    | succ r =>
      rw [offset_cons_succ]
      have := ih (fun l hl => h l (List.mem_cons_of_mem _ hl)) r
      simp only [total_width]; omega

theorem global_cell_offset (ws : List life_t) (h : ∀ l ∈ ws, 0 ≤ l.nx) (r : Nat)
    (hr : r < ws.length) (i y : Int) (hi0 : 0 ≤ i) (hi : i < (worker ws r).nx) :
    global_cell ws (offset ws r + i) y = cell (worker ws r) i y := by
  induction ws generalizing r with
  | nil => simp at hr
  | cons l ls ih =>
    have hls : ∀ l ∈ ls, 0 ≤ l.nx := fun l hl => h l (List.mem_cons_of_mem _ hl)
    cases r with
    | zero =>
      rw [worker_cons_zero] at hi ⊢
      rw [offset_zero, global_cell, if_pos (by omega), zero_add]
    | succ r =>
      rw [worker_cons_succ] at hi ⊢
      have := offset_nonneg ls hls r
      rw [offset_cons_succ, global_cell, if_neg (by omega),
        show l.nx + offset ls r + i - l.nx = offset ls r + i by ring]
      exact ih hls r (by simpa using hr) hi

theorem exists_rank_of_column (ws : List life_t) (h : ∀ l ∈ ws, 0 ≤ l.nx) (x : Int)
    (hx0 : 0 ≤ x) (hx : x < total_width ws) :
    ∃ r : Nat, ∃ i : Int, r < ws.length ∧ 0 ≤ i ∧ i < (worker ws r).nx ∧
      x = offset ws r + i := by
  induction ws generalizing x with
  | nil => simp [total_width] at hx; omega
  | cons l ls ih =>
    have hls : ∀ l ∈ ls, 0 ≤ l.nx := fun l hl => h l (List.mem_cons_of_mem _ hl)
    by_cases hxl : x < l.nx
    · exact ⟨0, x, by simp, hx0, by rw [worker_cons_zero]; exact hxl, by rw [offset_zero]; ring⟩
    · simp only [total_width] at hx
      obtain ⟨r, i, hr, hi0, hi, hxe⟩ := ih hls (x - l.nx) (by omega) (by omega)
      exact ⟨r + 1, i, by simpa using hr, hi0, by rw [worker_cons_succ]; exact hi,
        by rw [offset_cons_succ]; omega⟩

/-! ## Ghost consistency and the neighbours on the torus -/

theorem ghosts_consistent_at (ws : List life_t) (hg : ghosts_consistent ws) (r : Nat)
    (hr : r < ws.length) (j : Int) (hj0 : 0 ≤ j) (hj : j < (worker ws r).ny) :
    cell (worker ws r) (-1) j =
        cell (worker ws ((ws.length + r - 1) % ws.length))
          ((worker ws ((ws.length + r - 1) % ws.length)).nx - 1) j ∧
      cell (worker ws r) (worker ws r).nx j = cell (worker ws ((r + 1) % ws.length)) 0 j := by
  have := hg r (List.mem_range.mpr hr) j.toNat (List.mem_range.mpr (by omega))
  rwa [Int.toNat_of_nonneg hj0] at this

theorem binary_cells_at (ws : List life_t) (hb : binary_cells ws) (l : life_t) (hl : l ∈ ws)
    (i j : Int) (hi0 : 0 ≤ i) (hi : i < l.nx) (hj0 : 0 ≤ j) (hj : j < l.ny) :
    cell l i j = 0 ∨ cell l i j = 1 := by
  have := hb l hl i.toNat (List.mem_range.mpr (by omega)) j.toNat (List.mem_range.mpr (by omega))
  rwa [Int.toNat_of_nonneg hi0, Int.toNat_of_nonneg hj0] at this

theorem worker_mem (ws : List life_t) (r : Nat) (hr : r < ws.length) : worker ws r ∈ ws :=
  getD_mem ws r hr _

theorem is_grid_nonneg (ws : List life_t) (H : Int) (hws : ∀ l ∈ ws, is_grid H l) :
    ∀ l ∈ ws, 0 ≤ l.nx := fun l hl => by have := (hws l hl).1; omega

theorem cell_row_mod (l : life_t) (i y : Int) (hny : 0 < l.ny) (hy : -l.ny ≤ y) :
    cell l i y = cell l i (y % l.ny) := by
  unfold cell; rw [ind_mod l.ny i y hny hy]

theorem global_cell_mid (ws : List life_t) (H : Int) (hws : ∀ l ∈ ws, is_grid H l)
    (r : Nat) (hr : r < ws.length) (i y : Int) (hi0 : 0 ≤ i) (hi : i < (worker ws r).nx) :
    global_cell ws ((offset ws r + i + 0) % total_width ws) y = cell (worker ws r) i y := by
  have hnn := is_grid_nonneg ws H hws
  have h1 := offset_succ ws r hr
  have h2 := offset_le_total ws hnn (r + 1)
  have h3 := offset_nonneg ws hnn r
  rw [add_zero, Int.emod_eq_of_lt (by omega) (by omega)]
  exact global_cell_offset ws hnn r hr i y hi0 hi

theorem global_cell_right (ws : List life_t) (H : Int) (hws : ∀ l ∈ ws, is_grid H l)
    (hg : ghosts_consistent ws) (r : Nat) (hr : r < ws.length) (i y : Int) (hi0 : 0 ≤ i)
    (hi : i < (worker ws r).nx) (hy0 : 0 ≤ y) (hy : y < H) :
    global_cell ws ((offset ws r + i + 1) % total_width ws) y = cell (worker ws r) (i + 1) y := by
  have hnn := is_grid_nonneg ws H hws
  have h1 := offset_succ ws r hr
  have h2 := offset_le_total ws hnn (r + 1)
  have h3 := offset_nonneg ws hnn r
  have hny : (worker ws r).ny = H := (hws _ (worker_mem ws r hr)).2.1
  by_cases hin : i + 1 < (worker ws r).nx
  · rw [Int.emod_eq_of_lt (by omega) (by omega), add_assoc]
    exact global_cell_offset ws hnn r hr (i + 1) y (by omega) hin
  · have hie : i + 1 = (worker ws r).nx := by omega
    rw [hie, (ghosts_consistent_at ws hg r hr y hy0 (by omega)).2]
    by_cases hlast : r + 1 < ws.length
    · have h4 := offset_succ ws (r + 1) hlast
      have h5 := offset_le_total ws hnn (r + 1 + 1)
      have h6 := (hws _ (worker_mem ws (r + 1) hlast)).1
      rw [Nat.mod_eq_of_lt hlast, Int.emod_eq_of_lt (by omega) (by omega),
        show offset ws r + i + 1 = offset ws (r + 1) + 0 by omega]
      exact global_cell_offset ws hnn (r + 1) hlast 0 y (le_refl _) (by omega)
    · have hP : r + 1 = ws.length := by omega
      have h4 := offset_length ws
      rw [← hP] at h4
      have h0 : 0 < ws.length := by omega
      have h6 := (hws _ (worker_mem ws 0 h0)).1
      rw [show offset ws r + i + 1 = total_width ws by omega, Int.emod_self, hP, Nat.mod_self]
      have := global_cell_offset ws hnn 0 h0 0 y (le_refl _) (by omega)
      rwa [offset_zero, add_zero] at this

theorem global_cell_left (ws : List life_t) (H : Int) (hws : ∀ l ∈ ws, is_grid H l)
    (hg : ghosts_consistent ws) (r : Nat) (hr : r < ws.length) (i y : Int) (hi0 : 0 ≤ i)
    (hi : i < (worker ws r).nx) (hy0 : 0 ≤ y) (hy : y < H) :
    global_cell ws ((offset ws r + i + -1) % total_width ws) y =
      cell (worker ws r) (i + -1) y := by
  have hnn := is_grid_nonneg ws H hws
  have h1 := offset_succ ws r hr
  have h2 := offset_le_total ws hnn (r + 1)
  have h3 := offset_nonneg ws hnn r
  have hny : (worker ws r).ny = H := (hws _ (worker_mem ws r hr)).2.1
  by_cases hin : 1 ≤ i
  · rw [Int.emod_eq_of_lt (by omega) (by omega), add_assoc]
    exact global_cell_offset ws hnn r hr (i + -1) y (by omega) (by omega)
  · have hie : i = 0 := by omega
    subst hie
    rw [show (0 : Int) + -1 = -1 by rfl,
      (ghosts_consistent_at ws hg r hr y hy0 (by omega)).1]
    cases r with
    | zero =>
      have h0 : ws.length - 1 < ws.length := by omega
      have h4 := offset_succ ws (ws.length - 1) h0
      rw [show ws.length - 1 + 1 = ws.length by omega, offset_length] at h4
      have h5 := offset_nonneg ws hnn (ws.length - 1)
      have h6 := (hws _ (worker_mem ws _ h0)).1
      rw [show ws.length + 0 - 1 = ws.length - 1 by omega, Nat.mod_eq_of_lt h0, offset_zero,
        show (0 : Int) + 0 + -1 = -1 by rfl, ← Int.add_emod_self,
        Int.emod_eq_of_lt (by omega) (by omega),
        show -1 + total_width ws =
          offset ws (ws.length - 1) + ((worker ws (ws.length - 1)).nx - 1) by omega]
      exact global_cell_offset ws hnn _ h0 _ y (by omega) (by omega)
    | succ r =>
      have hr' : r < ws.length := by omega
      have h4 := offset_succ ws r hr'
      have h5 := offset_nonneg ws hnn r
      have h6 := (hws _ (worker_mem ws r hr')).1
      rw [show ws.length + (r + 1) - 1 = ws.length + r by omega, Nat.add_mod_left,
        Nat.mod_eq_of_lt hr', Int.emod_eq_of_lt (by omega) (by omega),
        show offset ws (r + 1) + 0 + -1 = offset ws r + ((worker ws r).nx - 1) by omega]
      exact global_cell_offset ws hnn r hr' _ y (by omega) (by omega)

/-! ## The step rule against the torus -/

theorem moore_bounds (d : Int × Int) (hd : d ∈ moore) :
    (d.1 = -1 ∨ d.1 = 0 ∨ d.1 = 1) ∧ -1 ≤ d.2 ∧ d.2 ≤ 1 := by
  simp only [moore, List.mem_cons, List.mem_singleton, List.mem_nil_iff, or_false] at hd
  rcases hd with h | h | h | h | h | h | h | h <;> subst h <;> simp

theorem countP_eq_sum (p : Int × Int → Bool) (c : Int × Int → Int) (ds : List (Int × Int))
    (h : ∀ d ∈ ds, p d = decide (c d = 1) ∧ (c d = 0 ∨ c d = 1)) :
    ((ds.countP p : Nat) : Int) = (ds.map c).sum := by
  induction ds with
  | nil => simp
  | cons d ds ih =>
    have hd := h d (List.mem_cons_self _ _)
    have ih' := ih (fun e he => h e (List.mem_cons_of_mem _ he))
    rw [List.countP_cons, List.map_cons, List.sum_cons]
    push_cast
    rw [ih', hd.1]
    rcases hd.2 with h0 | h1
    · rw [h0]; simp
    · rw [h1]; simp; ring

theorem neighbours_eq_sum (l : life_t) (i j : Int) :
    neighbours l i j = (moore.map (fun d => cell l (i + d.1) (j + d.2))).sum := by
  simp only [neighbours, moore, cell, List.map_cons, List.map_nil, List.sum_cons, List.sum_nil,
    sub_eq_add_neg, add_zero]
  ring

theorem global_cell_binary (ws : List life_t) (H : Int) (hws : ∀ l ∈ ws, is_grid H l)
    (hb : binary_cells ws) (x y : Int) (hx0 : 0 ≤ x) (hx : x < total_width ws) (hy0 : 0 ≤ y)
    (hy : y < H) : global_cell ws x y = 0 ∨ global_cell ws x y = 1 := by
  have hnn := is_grid_nonneg ws H hws
  obtain ⟨r, i, hr, hi0, hi, rfl⟩ := exists_rank_of_column ws hnn x hx0 hx
  rw [global_cell_offset ws hnn r hr i y hi0 hi]
  exact binary_cells_at ws hb _ (worker_mem ws r hr) i y hi0 hi hy0
    (by rw [(hws _ (worker_mem ws r hr)).2.1]; exact hy)

theorem global_cell_neighbour (ws : List life_t) (H : Int) (hH : 1 ≤ H)
    (hws : ∀ l ∈ ws, is_grid H l) (hg : ghosts_consistent ws) (r : Nat) (hr : r < ws.length)
    (i y : Int) (hi0 : 0 ≤ i) (hi : i < (worker ws r).nx) (hy0 : 0 ≤ y)
    (d : Int × Int) (hd : d ∈ moore) :
    global_cell ws ((offset ws r + i + d.1) % total_width ws) ((y + d.2) % H) =
      cell (worker ws r) (i + d.1) (y + d.2) := by
  obtain ⟨h1, h2, h3⟩ := moore_bounds d hd
  have hny : (worker ws r).ny = H := (hws _ (worker_mem ws r hr)).2.1
  have hm0 : 0 ≤ (y + d.2) % H := Int.emod_nonneg _ (by omega)
  have hm1 : (y + d.2) % H < H := Int.emod_lt_of_pos _ (by omega)
  rw [cell_row_mod (worker ws r) (i + d.1) (y + d.2) (by omega) (by omega), hny]
  rcases h1 with h | h | h <;> rw [h]
  · exact global_cell_left ws H hws hg r hr i _ hi0 hi hm0 hm1
  · rw [add_zero i]
    exact global_cell_mid ws H hws r hr i _ hi0 hi
  · exact global_cell_right ws H hws hg r hr i _ hi0 hi hm0 hm1

theorem rule_arith (n : Nat) (m c : Int) (hm : m = (n : Int)) (hc : c = 0 ∨ c = 1) :
    (if (m = 3 ∧ c = 0) ∨ ((m = 3 ∨ m = 2) ∧ c = 1) then (1 : Int) else 0) =
      if (if decide (c = 1) = true then decide (n = 2 ∨ n = 3) else decide (n = 3)) = true
      then 1 else 0 := by
  subst hm
  rcases hc with h0 | h1
  · subst h0
    by_cases hn : n = 3
    · subst hn; simp
    · have : ¬ ((n : Int) = 3) := by omega
      simp [hn, this]
  · subst h1
    by_cases hn : n = 2 ∨ n = 3
    · have : ((n : Int) = 3 ∨ (n : Int) = 2) := by omega
      simp [hn, this]
    · have : ¬ ((n : Int) = 3 ∨ (n : Int) = 2) := by omega
      simp [hn, this]

theorem rule_eq_torus_step (ws : List life_t) (H : Int) (hH : 1 ≤ H)
    (hws : ∀ l ∈ ws, is_grid H l) (hb : binary_cells ws) (hg : ghosts_consistent ws)
    (r : Nat) (hr : r < ws.length) (i y : Int) (hi0 : 0 ≤ i) (hi : i < (worker ws r).nx)
    (hy0 : 0 ≤ y) (hy : y < H) :
    rule (worker ws r) i y =
      if torus_step (total_width ws) H (global_grid ws) (offset ws r + i) y then 1 else 0 := by
  have hnn := is_grid_nonneg ws H hws
  have hny : (worker ws r).ny = H := (hws _ (worker_mem ws r hr)).2.1
  have hW1 := offset_succ ws r hr
  have hW2 := offset_le_total ws hnn (r + 1)
  have hW3 := offset_nonneg ws hnn r
  have hcount : ((torus_count (total_width ws) H (global_grid ws) (offset ws r + i) y : Nat) : Int)
      = neighbours (worker ws r) i y := by
    rw [neighbours_eq_sum]
    apply countP_eq_sum
    intro d hd
    have e := global_cell_neighbour ws H hH hws hg r hr i y hi0 hi hy0 d hd
    refine ⟨by simp only [global_grid]; rw [e], ?_⟩
    rw [← e]
    exact global_cell_binary ws H hws hb _ _ (Int.emod_nonneg _ (by omega))
      (Int.emod_lt_of_pos _ (by omega)) (Int.emod_nonneg _ (by omega))
      (Int.emod_lt_of_pos _ (by omega))
  have hc : global_cell ws (offset ws r + i) y = cell (worker ws r) i y :=
    global_cell_offset ws hnn r hr i y hi0 hi
  have hcb := binary_cells_at ws hb _ (worker_mem ws r hr) i y hi0 hi hy0 (by omega)
  unfold rule torus_step
  simp only [global_grid, hc]
  exact rule_arith _ _ _ hcount.symm hcb

/-! ## One round of the main loop -/

theorem is_grid_life_step (H : Int) (l : life_t) (hl : is_grid H l) :
    is_grid H (life_step l) := by
  obtain ⟨hnx, hny, hlen, hlen1⟩ := hl
  exact ⟨hnx, hny, by simp only [life_step, length_step_loops]; exact hlen1, hlen⟩

theorem cell_life_step (H : Int) (l : life_t) (hl : is_grid H l) (i j : Int) (hi0 : 0 ≤ i)
    (hi : i < l.nx) (hj0 : 0 ≤ j) (hj : j < H) : cell (life_step l) i j = rule l i j := by
  obtain ⟨-, hny, -, hlen1⟩ := hl
  exact rd_step_loops l i j hi0 hi hj0 (by omega) hlen1

theorem worker_map (f : life_t → life_t) (ws : List life_t) (r : Nat) (hr : r < ws.length) :
    worker (ws.map f) r = f (worker ws r) := by
  simp [worker, List.getD_eq_getElem?_getD, List.getElem?_map, List.getElem?_eq_getElem hr]

theorem total_width_congr (ws vs : List life_t) (h : vs.map (fun l => l.nx) = ws.map (fun l => l.nx)) :
    total_width vs = total_width ws := by
  induction ws generalizing vs with
  | nil =>
    cases vs with
    | nil => rfl
    | cons v vs => simp at h
  | cons w ws ih =>
    cases vs with
    | nil => simp at h
    | cons v vs =>
      simp only [List.map_cons, List.cons.injEq] at h
      simp only [total_width, h.1, ih vs h.2]

theorem offset_congr (ws vs : List life_t) (h : vs.map (fun l => l.nx) = ws.map (fun l => l.nx))
    (r : Nat) : offset vs r = offset ws r := by
  unfold offset
  apply total_width_congr
  rw [List.map_take, List.map_take, h]

theorem map_nx_round (ws : List life_t) :
    (round ws).map (fun l => l.nx) = ws.map (fun l => l.nx) := by
  apply List.ext_getElem?
  intro n
  simp only [round, exchange, List.getElem?_map, List.getElem?_mapIdx, Option.map_map]
  cases ws[n]? <;> rfl

theorem length_round (ws : List life_t) : (round ws).length = ws.length := by
  simp [round, length_exchange]

theorem round_cells (ws : List life_t) (H : Int) (hws : ∀ l ∈ ws, is_grid H l)
    (r : Nat) (hr : r < ws.length) (j : Int) (hj0 : 0 ≤ j) (hj : j < H) :
    is_grid H (worker (round ws) r) ∧
      (worker (round ws) r).nx = (worker ws r).nx ∧
      cell (worker (round ws) r) (-1) j =
        rule (worker ws ((ws.length + r - 1) % ws.length))
          ((worker ws ((ws.length + r - 1) % ws.length)).nx - 1) j ∧
      cell (worker (round ws) r) (worker ws r).nx j =
        rule (worker ws ((r + 1) % ws.length)) 0 j ∧
      ∀ i : Int, 0 ≤ i → i < (worker ws r).nx →
        cell (worker (round ws) r) i j = rule (worker ws r) i j := by
  have hP : 0 < ws.length := by omega
  have hleft : (ws.length + r - 1) % ws.length < ws.length := Nat.mod_lt _ hP
  have hright : (r + 1) % ws.length < ws.length := Nat.mod_lt _ hP
  have hws' : ∀ l ∈ ws.map life_step, is_grid H l := by
    intro l hl
    obtain ⟨l0, hl0, rfl⟩ := List.mem_map.mp hl
    exact is_grid_life_step H l0 (hws l0 hl0)
  have hlen : (ws.map life_step).length = ws.length := List.length_map _ _
  obtain ⟨e1, e2, -, e4, e5, e6⟩ :=
    exchange_cells (ws.map life_step) H hws' r (by rw [hlen]; exact hr) j hj0 hj
  rw [hlen] at e4 e5
  rw [worker_map _ _ _ hr] at e2 e5 e6
  rw [worker_map _ _ _ hleft] at e4
  rw [worker_map _ _ _ hright] at e5
  have gL := hws _ (worker_mem ws _ hleft)
  have gR := hws _ (worker_mem ws _ hright)
  have gr := hws _ (worker_mem ws _ hr)
  refine ⟨e1, e2, ?_, ?_, ?_⟩
  · rw [show round ws = exchange (ws.map life_step) from rfl, e4,
      show (life_step (worker ws ((ws.length + r - 1) % ws.length))).nx =
        (worker ws ((ws.length + r - 1) % ws.length)).nx from rfl]
    exact cell_life_step H _ gL _ j (by have := gL.1; omega)
      (by omega) hj0 hj
  · rw [show round ws = exchange (ws.map life_step) from rfl]
    rw [show (worker ws r).nx = (life_step (worker ws r)).nx from rfl, e5]
    exact cell_life_step H _ gR 0 j (le_refl _) (by have := gR.1; omega) hj0 hj
  · intro i hi0 hi
    rw [show round ws = exchange (ws.map life_step) from rfl, e6 i hi0 hi]
    exact cell_life_step H _ gr i j hi0 hi hj0 hj

theorem ghosts_consistent_round (ws : List life_t) (H : Int) (hH : 1 ≤ H)
    (hws : ∀ l ∈ ws, is_grid H l) : ghosts_consistent (round ws) := by
  intro r hr j hj
  rw [List.mem_range, length_round] at hr
  have hP : 0 < ws.length := by omega
  have hleft : (ws.length + r - 1) % ws.length < ws.length := Nat.mod_lt _ hP
  have hright : (r + 1) % ws.length < ws.length := Nat.mod_lt _ hP
  rw [List.mem_range] at hj
  have hj0 : (0 : Int) ≤ (j : Int) := Int.ofNat_zero_le _
  obtain ⟨g, -⟩ := round_cells ws H hws r hr 0 (le_refl _) (by omega)
  have hjH : (j : Int) < H := by rw [g.2.1] at hj; omega
  obtain ⟨-, n1, c1, c2, -⟩ := round_cells ws H hws r hr j hj0 hjH
  obtain ⟨-, n2, -, -, c3⟩ := round_cells ws H hws _ hleft j hj0 hjH
  obtain ⟨-, n3, -, -, c4⟩ := round_cells ws H hws _ hright j hj0 hjH
  have gL := (hws _ (worker_mem ws _ hleft)).1
  have gR := (hws _ (worker_mem ws _ hright)).1
  rw [length_round, n1, n2, c1, c2, c3 _ (by omega) (by omega), c4 0 (le_refl _) (by omega)]
  exact ⟨rfl, rfl⟩

/-! ## Partition arithmetic -/

theorem local_width_interior (W P r : Int) (hr0 : 0 ≤ r) (hr : r < P - 1) :
    local_width W P r = Int.tdiv W P := by
  unfold local_width
  have h : Int.tdiv (r + 1) P = 0 := by
    rw [Int.tdiv_eq_ediv (by omega) (by omega), Int.ediv_eq_zero_of_lt (by omega) (by omega)]
  rw [h]; simp

theorem local_width_last (W P : Int) (hP : 1 ≤ P) :
    local_width W P (P - 1) = Int.tdiv W P + Int.tmod W P := by
  unfold local_width
  have : Int.tdiv (P - 1 + 1) P = 1 := by
    rw [Int.tdiv_eq_ediv (by omega) (by omega)]
    simp only [sub_add_cancel]
    exact Int.ediv_self (by omega)
  rw [this]; simp

/-! ## Seed loading -/

theorem rd_replicate_zero (n : Nat) (p : Int) : rd (List.replicate n 0) p = 0 := by
  unfold rd
  split
  · rw [List.getD_eq_getElem?_getD, List.getElem?_replicate]
    split <;> rfl
  · rfl

theorem load_seed_frame (W avg size rank : Int) (l : life_t) (s : Int × Int) :
    (load_seed W avg size rank l s).nx = l.nx ∧ (load_seed W avg size rank l s).ny = l.ny ∧
      (load_seed W avg size rank l s).u1 = l.u1 ∧
      (load_seed W avg size rank l s).u0.length = l.u0.length ∧
      (load_seed W avg size rank l s).steps = l.steps ∧
      (load_seed W avg size rank l s).save_steps = l.save_steps := by
  unfold load_seed
  simp only
  split
  · exact ⟨rfl, rfl, rfl, length_wr _ _ _, rfl, rfl⟩
  · exact ⟨rfl, rfl, rfl, rfl, rfl, rfl⟩

theorem foldl_load_seed_frame (W avg size rank : Int) (seeds : List (Int × Int)) (l : life_t) :
    (seeds.foldl (load_seed W avg size rank) l).nx = l.nx ∧
      (seeds.foldl (load_seed W avg size rank) l).ny = l.ny ∧
      (seeds.foldl (load_seed W avg size rank) l).u1 = l.u1 ∧
      (seeds.foldl (load_seed W avg size rank) l).u0.length = l.u0.length := by
  induction seeds generalizing l with
  | nil => exact ⟨rfl, rfl, rfl, rfl⟩
  | cons s ss ih =>
    obtain ⟨h1, h2, h3, h4, -, -⟩ := load_seed_frame W avg size rank l s
    obtain ⟨k1, k2, k3, k4⟩ := ih (load_seed W avg size rank l s)
    rw [List.foldl_cons]
    exact ⟨k1.trans h1, k2.trans h2, k3.trans h3, k4.trans h4⟩

theorem load_seed_keeps_one (W avg size rank : Int) (l : life_t) (s : Int × Int) (p : Int)
    (h : rd l.u0 p = 1) : rd (load_seed W avg size rank l s).u0 p = 1 := by
  unfold load_seed
  simp only
  split
  · simp only [rd_wr]
    split
    · rfl
    · exact h
  · exact h

theorem foldl_load_seed_keeps_one (W avg size rank : Int) (seeds : List (Int × Int))
    (l : life_t) (p : Int) (h : rd l.u0 p = 1) :
    rd (seeds.foldl (load_seed W avg size rank) l).u0 p = 1 := by
  induction seeds generalizing l with
  | nil => exact h
  | cons s ss ih =>
    rw [List.foldl_cons]
    exact ih _ (load_seed_keeps_one W avg size rank l s p h)

theorem cell_load_seed (W avg size rank : Int) (l : life_t) (s : Int × Int)
    (hlen : l.u0.length = ((l.nx + 2) * l.ny).toNat) (hs0 : 0 ≤ s.2) (hs : s.2 < l.ny)
    (a j : Int) (ha0 : -1 ≤ a) (ha : a ≤ l.nx) (hj0 : 0 ≤ j) (hj : j < l.ny) :
    cell (load_seed W avg size rank l s) a j =
      if map_col W avg size rank l.nx s.1 = a ∧ s.2 = j then 1 else cell l a j := by
  unfold load_seed cell
  simp only
  split
  · rename_i hacc
    have hb := ind_real_bounds l.nx l.ny _ s.2 hacc.1 hacc.2 hs0 hs
    simp only [rd_wr]
    by_cases heq : map_col W avg size rank l.nx s.1 = a ∧ s.2 = j
    · rw [if_pos heq, heq.1, heq.2, if_pos ⟨rfl, by rw [← heq.1, ← heq.2]; exact hb.1,
        by rw [← heq.1, ← heq.2, hlen]; omega⟩]
    · rw [if_neg heq, if_neg]
      rintro ⟨hind, -⟩
      have := ind_inj l.ny a j _ s.2 hj0 hj hs0 hs hind
      exact heq ⟨this.1.symm, this.2.symm⟩
  · rename_i hacc
    rw [if_neg]
    rintro ⟨h1, -⟩
    exact hacc ⟨by omega, by omega⟩

theorem cell_foldl_load_seed (W avg size rank : Int) (seeds : List (Int × Int)) (l : life_t)
    (hlen : l.u0.length = ((l.nx + 2) * l.ny).toNat)
    (hseeds : ∀ s ∈ seeds, 0 ≤ s.2 ∧ s.2 < l.ny)
    (a j : Int) (ha0 : -1 ≤ a) (ha : a ≤ l.nx) (hj0 : 0 ≤ j) (hj : j < l.ny) :
    cell (seeds.foldl (load_seed W avg size rank) l) a j =
      if ∃ s ∈ seeds, map_col W avg size rank l.nx s.1 = a ∧ s.2 = j then 1 else cell l a j := by
  induction seeds generalizing l with
  | nil => simp
  | cons s ss ih =>
    obtain ⟨h1, h2, -, h4, -, -⟩ := load_seed_frame W avg size rank l s
    have hs := hseeds s (List.mem_cons_self _ _)
    rw [List.foldl_cons, ih (load_seed W avg size rank l s) (by rw [h4, h1, h2]; exact hlen)
      (fun t ht => by rw [h2]; exact hseeds t (List.mem_cons_of_mem _ ht))
      (by rw [h1]; exact ha) (by rw [h2]; exact hj),
      cell_load_seed W avg size rank l s hlen hs.1 hs.2 a j ha0 ha hj0 hj, h1]
    by_cases hex : ∃ t ∈ ss, map_col W avg size rank l.nx t.1 = a ∧ t.2 = j
    · obtain ⟨t, ht, htt⟩ := hex
      rw [if_pos ⟨t, ht, htt⟩, if_pos ⟨t, List.mem_cons_of_mem _ ht, htt⟩]
    · rw [if_neg hex]
      by_cases hhd : map_col W avg size rank l.nx s.1 = a ∧ s.2 = j
      · rw [if_pos hhd, if_pos ⟨s, List.mem_cons_self _ _, hhd⟩]
      · rw [if_neg hhd, if_neg]
        rintro ⟨t, ht, htt⟩
        rcases List.mem_cons.mp ht with rfl | ht'
        · exact hhd htt
        · exact hex ⟨t, ht', htt⟩

theorem life_init_frame (size rank steps save_steps W H : Int) (seeds : List (Int × Int)) :
    (life_init size rank steps save_steps W H seeds).nx = local_width W size rank ∧
      (life_init size rank steps save_steps W H seeds).ny = H ∧
      (life_init size rank steps save_steps W H seeds).u1 =
        List.replicate ((local_width W size rank + 2) * H).toNat 0 ∧
      (life_init size rank steps save_steps W H seeds).u0.length =
        ((local_width W size rank + 2) * H).toNat := by
  unfold life_init
  simp only
  obtain ⟨k1, k2, k3, k4⟩ := foldl_load_seed_frame W (Int.tdiv W size) size rank seeds
    { nx := local_width W size rank, ny := H
      u0 := List.replicate ((local_width W size rank + 2) * H).toNat 0
      u1 := List.replicate ((local_width W size rank + 2) * H).toNat 0
      steps := steps, save_steps := save_steps }
  exact ⟨k1, k2, k3, by rw [k4]; simp⟩

theorem cell_life_init (size rank steps save_steps W H : Int) (seeds : List (Int × Int))
    (hseeds : ∀ s ∈ seeds, 0 ≤ s.2 ∧ s.2 < H)
    (a j : Int) (ha0 : -1 ≤ a) (ha : a ≤ local_width W size rank) (hj0 : 0 ≤ j) (hj : j < H) :
    cell (life_init size rank steps save_steps W H seeds) a j =
      if ∃ s ∈ seeds, map_col W (Int.tdiv W size) size rank (local_width W size rank) s.1 = a ∧
        s.2 = j then 1 else 0 := by
  unfold life_init
  simp only
  rw [cell_foldl_load_seed W (Int.tdiv W size) size rank seeds _ (by simp) hseeds a j ha0 ha
    hj0 hj]
  simp only [cell, rd_replicate_zero]

theorem one_le_local_width (W P r : Int) (hP : 1 ≤ P) (hPW : P ≤ W) (hr0 : 0 ≤ r)
    (hr : r < P) : 1 ≤ local_width W P r := by
  have hd : Int.tdiv W P = W / P := Int.tdiv_eq_ediv (by omega) (by omega)
  have hm : Int.tmod W P = W % P := Int.tmod_eq_emod (by omega) (by omega)
  have hm0 : 0 ≤ W % P := Int.emod_nonneg _ (by omega)
  have hq : 1 ≤ W / P := by
    have := Int.ediv_le_ediv (by omega : 0 < P) hPW
    rwa [Int.ediv_self (by omega)] at this
  by_cases h : r < P - 1
  · rw [local_width_interior W P r hr0 h, hd]; exact hq
  · rw [show r = P - 1 by omega, local_width_last W P hP, hd, hm]; omega

theorem sum_local_width_init (W P : Int) (n : Nat) (hn : (n : Int) ≤ P - 1) :
    ((List.range n).map (fun r : Nat => local_width W P (r : Int))).sum = (n : Int) * Int.tdiv W P := by
  induction n with
  | zero => simp
  | succ k ih =>
    rw [List.range_succ, List.map_append, List.sum_append, ih (by push_cast at hn; omega)]
    simp only [List.map_cons, List.map_nil, List.sum_cons, List.sum_nil, add_zero]
    rw [local_width_interior W P k (by omega) (by push_cast at hn; omega)]
    push_cast; ring

theorem load_last_column_seed (W avg P : Int) (l : life_t) (j : Int) (hnx : -1 ≤ l.nx)
    (hlen : l.u0.length = ((l.nx + 2) * l.ny).toNat) (hj0 : 0 ≤ j) (hj : j < l.ny) :
    rd (load_seed W avg P 0 l (W - 1, j)).u0 j = 1 := by
  have hb := ind_real_bounds l.nx l.ny (-1) j (le_refl _) hnx hj0 hj
  have hi := ind_row l.ny (-1) j hj0 hj
  rw [show (-1 + 1) * l.ny + j = j by ring] at hi
  rw [hi] at hb
  have hm : map_col W avg P 0 l.nx (W - 1) = -1 := by
    unfold map_col; rw [if_pos ⟨rfl, rfl⟩]
  unfold load_seed
  simp only [hm]
  rw [if_pos ⟨le_refl _, hnx⟩]
  simp only [rd_wr, hi]
  rw [if_pos ⟨trivial, hj0, by rw [hlen]; omega⟩]

/-! ## Verified properties -/

/-- C1: for a family of `P ≥ 1` worker grids of common height `H ≥ 1`, local
widths at least 1, cells 0/1 and consistent ghost columns, after `life_step`
on every worker and then `exchange` the real columns concatenated in rank
order equal one Game-of-Life generation on the `W × H` torus applied to the
concatenation before the step, and the ghost columns are consistent again. -/
theorem round_refines_torus_step (ws : List life_t) (H : Int)
    (hH : 1 ≤ H) (hws : ∀ l ∈ ws, is_grid H l) (hb : binary_cells ws)
    (hg : ghosts_consistent ws) :
    (∀ x y : Int, 0 ≤ x → x < total_width ws → 0 ≤ y → y < H →
        global_cell (round ws) x y =
          if torus_step (total_width ws) H (global_grid ws) x y then 1 else 0) ∧
      ghosts_consistent (round ws) := by
  have hnn := is_grid_nonneg ws H hws
  have hnx := map_nx_round ws
  refine ⟨?_, ghosts_consistent_round ws H hH hws⟩
  intro x y hx0 hx hy0 hy
  obtain ⟨r, i, hr, hi0, hi, rfl⟩ := exists_rank_of_column ws hnn x hx0 hx
  have hnn' : ∀ l ∈ round ws, 0 ≤ l.nx := by
    intro l hl
    have hm : l.nx ∈ (round ws).map (fun l => l.nx) := List.mem_map_of_mem _ hl
    rw [hnx] at hm
    obtain ⟨k, hk, e⟩ := List.mem_map.mp hm
    rw [← e]; exact hnn k hk
  obtain ⟨-, n1, -, -, c⟩ := round_cells ws H hws r hr y hy0 hy
  rw [← offset_congr ws (round ws) hnx r,
    global_cell_offset (round ws) hnn' r (by rw [length_round]; exact hr) i y hi0
      (by rw [n1]; exact hi),
    c i hi0 hi, offset_congr ws (round ws) hnx r,
    rule_eq_torus_step ws H hH hws hb hg r hr i y hi0 hi hy0 hy]

theorem round_refines_torus_step_witness :
    (global_cell (round example_ring) 0 1 =
        if torus_step (total_width example_ring) 2 (global_grid example_ring) 0 1
        then 1 else 0) ∧
      ghosts_consistent (round example_ring) :=
  have h := round_refines_torus_step example_ring 2 (by decide) (by decide) (by decide)
    (by decide)
  ⟨h.1 0 1 (by decide) (by decide) (by decide) (by decide), h.2⟩

/-- C2 (failing input): with `P = 1`, width 4, height 4 and the seeds
`(0,0)`, `(0,1)`, `(0,2)`, the real cell `(0, 1)` is dead after seed loading
although `(0, 1)` is a seed, and it is dead after one round although it is
alive after one generation of sequential Game of Life on the `4 × 4` torus. -/
theorem single_worker_drops_edge_seeds :
    global_cell (main 1 0 1 4 4 [(0, 0), (0, 1), (0, 2)]) 0 1 = 0 ∧
      sequential 4 4 [(0, 0), (0, 1), (0, 2)] 0 0 1 = true ∧
      global_cell (main 1 1 1 4 4 [(0, 0), (0, 1), (0, 2)]) 0 1 = 0 ∧
      sequential 4 4 [(0, 0), (0, 1), (0, 2)] 1 0 1 = true := by
  decide

/-- C3: after `exchange` on a family of worker grids of common height `H` and
local widths at least 1, for every rank `r` and row `j` in `[0, H)` the left
ghost cell `(-1, j)` of worker `r` equals the cell `(local_width - 1, j)`
which worker `(P + r - 1) mod P` held before the exchange, and its right
ghost cell `(local_width, j)` equals the cell `(0, j)` which worker
`(r + 1) mod P` held before the exchange. -/
theorem exchange_ghost_columns (ws : List life_t) (H : Int)
    (hws : ∀ l ∈ ws, is_grid H l) (r : Nat) (hr : r < ws.length) (j : Int) (hj0 : 0 ≤ j)
    (hj : j < H) :
    cell (worker (exchange ws) r) (-1) j =
        cell (worker ws ((ws.length + r - 1) % ws.length))
          ((worker ws ((ws.length + r - 1) % ws.length)).nx - 1) j ∧
      cell (worker (exchange ws) r) (worker (exchange ws) r).nx j =
        cell (worker ws ((r + 1) % ws.length)) 0 j := by
  obtain ⟨-, e2, -, e4, e5, -⟩ := exchange_cells ws H hws r hr j hj0 hj
  rw [e2]
  exact ⟨e4, e5⟩

theorem exchange_ghost_columns_witness :
    cell (worker (exchange example_ring) 0) (-1) 1 =
        cell (worker example_ring ((example_ring.length + 0 - 1) % example_ring.length))
          ((worker example_ring ((example_ring.length + 0 - 1) % example_ring.length)).nx - 1)
          1 ∧
      cell (worker (exchange example_ring) 0) (worker (exchange example_ring) 0).nx 1 =
        cell (worker example_ring ((0 + 1) % example_ring.length)) 0 1 :=
  exchange_ghost_columns example_ring 2 (by decide) 0 (by decide) 1 (by decide) (by decide)

/-- C4: for a worker grid of local width at least 1 and height `H ≥ 1` and a
real cell `(i, j)`, after `life_step` the active buffer holds 1 at `(i, j)`
exactly when the sum `n` of the 8 neighbouring cells of the active buffer
before the step, rows wrapping modulo the height, satisfies (cell was 0 and
`n = 3`) or (cell was 1 and `n` is 2 or 3); otherwise it holds 0. -/
theorem life_step_rule (l : life_t) (H : Int) (hH : 1 ≤ H) (hl : is_grid H l) (i j : Int)
    (hi0 : 0 ≤ i) (hi : i < l.nx) (hj0 : 0 ≤ j) (hj : j < H) :
    cell (life_step l) i j =
      if (cell l i j = 0 ∧ wrapped_sum l i j = 3) ∨
          (cell l i j = 1 ∧ (wrapped_sum l i j = 2 ∨ wrapped_sum l i j = 3))
      then 1 else 0 := by
  have hny : l.ny = H := hl.2.1
  have hsum : neighbours l i j = wrapped_sum l i j := by
    rw [neighbours_eq_sum]
    unfold wrapped_sum
    apply congrArg
    apply List.map_congr_left
    intro d hd
    obtain ⟨-, h2, -⟩ := moore_bounds d hd
    unfold cell
    rw [ind_row_wrap l.ny (i + d.1) (j + d.2) (by omega) (by omega)]
  rw [cell_life_step H l hl i j hi0 hi hj0 hj]
  unfold rule
  rw [hsum]
  apply if_congr _ rfl rfl
  unfold cell
  tauto

theorem life_step_rule_witness :
    cell (life_step (worker example_ring 1)) 0 1 =
      if (cell (worker example_ring 1) 0 1 = 0 ∧ wrapped_sum (worker example_ring 1) 0 1 = 3) ∨
          (cell (worker example_ring 1) 0 1 = 1 ∧
            (wrapped_sum (worker example_ring 1) 0 1 = 2 ∨
              wrapped_sum (worker example_ring 1) 0 1 = 3))
      then 1 else 0 :=
  life_step_rule (worker example_ring 1) 2 (by decide) (by decide) 0 1 (by decide) (by decide)
    (by decide) (by decide)

/-- C5: for `1 ≤ P ≤ W` the local widths computed by `life_init`, summed over
the ranks `0 .. P-1`, equal the global width `W`. -/
theorem local_width_sum (W P : Int) (hP : 1 ≤ P) (hPW : P ≤ W) :
    ((List.range P.toNat).map (fun r : Nat => local_width W P (r : Int))).sum = W := by
  obtain ⟨n, hn⟩ : ∃ n : Nat, P.toNat = n + 1 := ⟨P.toNat - 1, by omega⟩
  have hPn : P = (n : Int) + 1 := by omega
  rw [hn, List.range_succ, List.map_append, List.sum_append,
    sum_local_width_init W P n (by omega)]
  simp only [List.map_cons, List.map_nil, List.sum_cons, List.sum_nil, add_zero]
  have hl := local_width_last W P hP
  rw [show P - 1 = (n : Int) by omega] at hl
  rw [hl, Int.tdiv_eq_ediv (by omega) (by omega), Int.tmod_eq_emod (by omega) (by omega)]
  have := Int.ediv_add_emod W P
  rw [hPn] at this ⊢
  linarith

theorem local_width_sum_witness :
    ((List.range (3 : Int).toNat).map (fun r : Nat => local_width 7 3 (r : Int))).sum = 7 :=
  local_width_sum 7 3 (by decide) (by decide)

/-- C6: for `W ≥ 1`, `P ≥ 1` and `0 ≤ r < P` the width assigned by `life_init`
is `W/P` when `r < P-1` and `W/P + (W mod P)` when `r = P-1`; and when
`P ≤ W` it is at least `1`. -/
theorem local_width_formula (W P r : Int) (hW : 1 ≤ W) (hP : 1 ≤ P) (hr0 : 0 ≤ r) (hr : r < P) :
    (r < P - 1 → local_width W P r = W / P) ∧
      (r = P - 1 → local_width W P r = W / P + W % P) ∧
      (P ≤ W → 1 ≤ local_width W P r) := by
  have hd : Int.tdiv W P = W / P := Int.tdiv_eq_ediv (by omega) (by omega)
  have hm : Int.tmod W P = W % P := Int.tmod_eq_emod (by omega) (by omega)
  exact ⟨fun h => by rw [local_width_interior W P r hr0 h, hd],
    fun h => by rw [h, local_width_last W P hP, hd, hm],
    fun hPW => one_le_local_width W P r hP hPW hr0 hr⟩

theorem local_width_formula_witness :
    ((2 : Int) < 3 - 1 → local_width 7 3 2 = 7 / 3) ∧
      ((2 : Int) = 3 - 1 → local_width 7 3 2 = 7 / 3 + 7 % 3) ∧
      ((3 : Int) ≤ 7 → 1 ≤ local_width 7 3 2) :=
  local_width_formula 7 3 2 (by decide) (by decide) (by decide) (by decide)

/-- C7 (amended): for every height `H ≥ 1`, every column `i` and every row
`j ≥ -H`, `ind(i, j)` is `(i+1)*H + (j mod H)` with `0 ≤ j mod H < H`, lies in
the block `[(i+1)*H, (i+2)*H)` of column `i`, and `ind(i, j) = ind(i, j + H)`. -/
theorem ind_periodic_from_minus_height (H i j : Int) (hH : 1 ≤ H) (hj : -H ≤ j) :
    ind H i j = (i + 1) * H + j % H ∧ 0 ≤ j % H ∧ j % H < H ∧
      (i + 1) * H ≤ ind H i j ∧ ind H i j < (i + 2) * H ∧
      ind H i j = ind H i (j + H) := by
  have h0 : 0 ≤ j % H := Int.emod_nonneg _ (by omega)
  have h1 : j % H < H := Int.emod_lt_of_pos _ (by omega)
  have e1 := ind_row_wrap H i j (by omega) hj
  have e2 := ind_row_wrap H i (j + H) (by omega) (by omega)
  rw [Int.add_emod_self] at e2
  refine ⟨e1, h0, h1, by rw [e1]; omega, ?_, by rw [e1, e2]⟩
  rw [e1]
  have : (i + 2) * H = (i + 1) * H + H := by ring
  omega

theorem ind_periodic_from_minus_height_witness :
    ind 4 (-1) (-1) = (-1 + 1) * 4 + (-1) % 4 ∧ 0 ≤ (-1 : Int) % 4 ∧ (-1 : Int) % 4 < 4 ∧
      (-1 + 1) * 4 ≤ ind 4 (-1) (-1) ∧ ind 4 (-1) (-1) < (-1 + 2) * 4 ∧
      ind 4 (-1) (-1) = ind 4 (-1) (-1 + 4) :=
  ind_periodic_from_minus_height 4 (-1) (-1) (by decide) (by decide)

/-- C7 (as stated) fails below `-H`: for `H = 3`, `i = 0`, `j = -4` the
position `ind(0, -4)` is `2`, which is not `(0+1)*3 + ((-4) mod 3) = 5`, lies
outside the block `[3, 6)` of column `0`, and differs from `ind(0, -4 + 3)`. -/
theorem ind_below_minus_height_counterexample :
    ind 3 0 (-4) = 2 ∧ ¬ (ind 3 0 (-4) = (0 + 1) * 3 + (-4) % 3) ∧
      ¬ ((0 + 1) * 3 ≤ ind 3 0 (-4)) ∧ ¬ (ind 3 0 (-4) = ind 3 0 (-4 + 3)) := by
  decide

/-- C8 (as stated) fails: with `P = 3`, `W = 3`, height 3 and the single seed
`(0, 0)`, the interior rank 1 receives the seed in its left ghost column, at
the cell `(-1, 0)`, so that this ghost column is not entirely dead. -/
theorem interior_ghost_seeded_counterexample :
    cell (life_init 3 1 1 1 3 3 [(0, 0)]) (-1) 0 = 1 ∧
      ¬ (∀ j ∈ List.range 3,
          cell (life_init 3 1 1 1 3 3 [(0, 0)]) (-1) (j : Int) = 0 ∧
            cell (life_init 3 1 1 1 3 3 [(0, 0)]) (life_init 3 1 1 1 3 3 [(0, 0)]).nx
              (j : Int) = 0) := by
  decide

/-- C8 (amended): for `P ≥ 3`, `W ≥ P`, an interior rank `0 < r < P-1` and
seeds with `0 ≤ col < W` and `0 ≤ row < H`, a seed of column `i` is always
mapped to the column `i - (W/P)*r` on rank `r` (the branches to `-1` and to
`local_width` are taken only on rank 0 and rank `P-1`), and after the seed
loading the left ghost cell `(-1, j)` of rank `r` is 1 exactly when
`((W/P)*r - 1, j)` is a seed and its right ghost cell `(local_width, j)` is 1
exactly when `((W/P)*(r+1), j)` is a seed; otherwise they are 0. -/
theorem interior_ghosts_from_adjacent_seeds (W P r H steps save_steps : Int)
    (seeds : List (Int × Int)) (hP : 3 ≤ P) (hPW : P ≤ W) (hr0 : 0 < r) (hr : r < P - 1)
    (hseeds : ∀ s ∈ seeds, 0 ≤ s.1 ∧ s.1 < W ∧ 0 ≤ s.2 ∧ s.2 < H)
    (j : Int) (hj0 : 0 ≤ j) (hj : j < H) :
    (∀ i : Int, map_col W (Int.tdiv W P) P r (local_width W P r) i = i - Int.tdiv W P * r) ∧
      cell (life_init P r steps save_steps W H seeds) (-1) j =
        (if (Int.tdiv W P * r - 1, j) ∈ seeds then 1 else 0) ∧
      cell (life_init P r steps save_steps W H seeds) (local_width W P r) j =
        (if (Int.tdiv W P * (r + 1), j) ∈ seeds then 1 else 0) := by
  have hmap : ∀ i : Int,
      map_col W (Int.tdiv W P) P r (local_width W P r) i = i - Int.tdiv W P * r := by
    intro i
    unfold map_col
    rw [if_neg (fun h => by omega), if_neg (fun h => by omega)]
  have hw := one_le_local_width W P r (by omega) hPW (by omega) (by omega)
  have hwi := local_width_interior W P r (by omega) hr
  have hrows : ∀ s ∈ seeds, 0 ≤ s.2 ∧ s.2 < H := fun s hs => (hseeds s hs).2.2
  refine ⟨hmap, ?_, ?_⟩
  · rw [cell_life_init P r steps save_steps W H seeds hrows (-1) j (le_refl _) (by omega) hj0 hj]
    apply if_congr _ rfl rfl
    constructor
    · rintro ⟨s, hs, h1, h2⟩
      rw [hmap] at h1
      have : s = (Int.tdiv W P * r - 1, j) := Prod.ext (by simp only; omega) h2
      rw [← this]; exact hs
    · intro h
      exact ⟨_, h, by rw [hmap]; show Int.tdiv W P * r - 1 - Int.tdiv W P * r = -1; omega, rfl⟩
  · rw [cell_life_init P r steps save_steps W H seeds hrows _ j (by omega) (le_refl _) hj0 hj]
    apply if_congr _ rfl rfl
    have e : Int.tdiv W P * (r + 1) = Int.tdiv W P * r + Int.tdiv W P := by ring
    constructor
    · rintro ⟨s, hs, h1, h2⟩
      rw [hmap, hwi] at h1
      have : s = (Int.tdiv W P * (r + 1), j) := Prod.ext (by simp only; omega) h2
      rw [← this]; exact hs
    · intro h
      exact ⟨_, h, by
        rw [hmap, hwi]
        show Int.tdiv W P * (r + 1) - Int.tdiv W P * r = Int.tdiv W P
        omega, rfl⟩

theorem interior_ghosts_from_adjacent_seeds_witness :
    (∀ i : Int, map_col 7 (Int.tdiv 7 3) 3 1 (local_width 7 3 1) i = i - Int.tdiv 7 3 * 1) ∧
      cell (life_init 3 1 1 1 7 2 [(1, 0), (4, 1)]) (-1) 0 =
        (if (Int.tdiv 7 3 * 1 - 1, 0) ∈ [((1 : Int), (0 : Int)), (4, 1)] then 1 else 0) ∧
      cell (life_init 3 1 1 1 7 2 [(1, 0), (4, 1)]) (local_width 7 3 1) 0 =
        (if (Int.tdiv 7 3 * (1 + 1), 0) ∈ [((1 : Int), (0 : Int)), (4, 1)] then 1 else 0) :=
  interior_ghosts_from_adjacent_seeds 7 3 1 2 1 1 [(1, 0), (4, 1)] (by decide) (by decide)
    (by decide) (by decide) (by decide) 0 (by decide) (by decide)

/-- C9: processing the seed `(i, j)` with `0 ≤ j < H` on a worker grid of
height `H`, with `i'` the mapped column: when `-1 ≤ i' ≤ local_width` the cell
`(i', j)` of the active buffer becomes 1 and nothing else changes; when `i'`
is outside that range the grid is unchanged. -/
theorem load_seed_accept_or_ignore (W P r H : Int) (l : life_t) (hny : l.ny = H)
    (hlen : l.u0.length = ((l.nx + 2) * l.ny).toNat) (i j : Int) (hj0 : 0 ≤ j) (hj : j < H) :
    (-1 ≤ mapped_column W P r l.nx i ∧ mapped_column W P r l.nx i ≤ l.nx →
        cell (load_seed W (Int.tdiv W P) P r l (i, j)) (mapped_column W P r l.nx i) j = 1 ∧
          (∀ p : Int, p ≠ (mapped_column W P r l.nx i + 1) * H + j →
            rd (load_seed W (Int.tdiv W P) P r l (i, j)).u0 p = rd l.u0 p) ∧
          (load_seed W (Int.tdiv W P) P r l (i, j)).u0.length = l.u0.length ∧
          (load_seed W (Int.tdiv W P) P r l (i, j)).u1 = l.u1 ∧
          (load_seed W (Int.tdiv W P) P r l (i, j)).nx = l.nx ∧
          (load_seed W (Int.tdiv W P) P r l (i, j)).ny = l.ny) ∧
      (¬ (-1 ≤ mapped_column W P r l.nx i ∧ mapped_column W P r l.nx i ≤ l.nx) →
        load_seed W (Int.tdiv W P) P r l (i, j) = l) := by
  have hmc : map_col W (Int.tdiv W P) P r l.nx i = mapped_column W P r l.nx i := rfl
  obtain ⟨f1, f2, f3, f4, -, -⟩ := load_seed_frame W (Int.tdiv W P) P r l (i, j)
  constructor
  · intro hacc
    refine ⟨?_, ?_, f4, f3, f1, f2⟩
    · rw [cell_load_seed W (Int.tdiv W P) P r l (i, j) hlen hj0 (by omega) _ j hacc.1 hacc.2
        hj0 (by omega), if_pos ⟨hmc, rfl⟩]
    · intro p hp
      unfold load_seed
      simp only [hmc]
      rw [if_pos ⟨by omega, hacc.2⟩]
      simp only [rd_wr]
      rw [if_neg]
      rintro ⟨h, -⟩
      rw [hny, ind_row H _ j hj0 hj] at h
      exact hp h
  · intro hrej
    unfold load_seed
    simp only [hmc]
    rw [if_neg (fun h => hrej ⟨by omega, h.2⟩)]

theorem load_seed_accept_or_ignore_witness :
    (-1 ≤ mapped_column 4 2 0 example_grid.nx 3 ∧
          mapped_column 4 2 0 example_grid.nx 3 ≤ example_grid.nx →
        cell (load_seed 4 (Int.tdiv 4 2) 2 0 example_grid (3, 1))
            (mapped_column 4 2 0 example_grid.nx 3) 1 = 1 ∧
          (∀ p : Int, p ≠ (mapped_column 4 2 0 example_grid.nx 3 + 1) * 2 + 1 →
            rd (load_seed 4 (Int.tdiv 4 2) 2 0 example_grid (3, 1)).u0 p =
              rd example_grid.u0 p) ∧
          (load_seed 4 (Int.tdiv 4 2) 2 0 example_grid (3, 1)).u0.length =
            example_grid.u0.length ∧
          (load_seed 4 (Int.tdiv 4 2) 2 0 example_grid (3, 1)).u1 = example_grid.u1 ∧
          (load_seed 4 (Int.tdiv 4 2) 2 0 example_grid (3, 1)).nx = example_grid.nx ∧
          (load_seed 4 (Int.tdiv 4 2) 2 0 example_grid (3, 1)).ny = example_grid.ny) ∧
      (¬ (-1 ≤ mapped_column 4 2 0 example_grid.nx 3 ∧
            mapped_column 4 2 0 example_grid.nx 3 ≤ example_grid.nx) →
        load_seed 4 (Int.tdiv 4 2) 2 0 example_grid (3, 1) = example_grid) :=
  load_seed_accept_or_ignore 4 2 0 2 example_grid (by decide) (by decide) 3 1 (by decide)
    (by decide)

/-- C10: for `1 ≤ P ≤ W`, height `H ≥ 1` and a row `j` in `[0, H)`, after
rank 0 loads a scenario containing the seed `(W-1, j)`, the cell `(-1, j)` of
its active buffer, at the storage position `j`, is 1. -/
theorem last_column_seed_in_left_ghost (W P H steps save_steps : Int)
    (hP : 1 ≤ P) (hPW : P ≤ W) (j : Int) (hj0 : 0 ≤ j) (hj : j < H)
    (seeds : List (Int × Int)) (hmem : (W - 1, j) ∈ seeds) :
    cell (life_init P 0 steps save_steps W H seeds) (-1) j = 1 ∧
      rd (life_init P 0 steps save_steps W H seeds).u0 j = 1 := by
  have hw := one_le_local_width W P 0 hP hPW (le_refl _) (by omega)
  have key : rd (life_init P 0 steps save_steps W H seeds).u0 j = 1 := by
    obtain ⟨s1, s2, rfl⟩ := List.append_of_mem hmem
    unfold life_init
    simp only [List.foldl_append, List.foldl_cons]
    apply foldl_load_seed_keeps_one
    obtain ⟨k1, k2, -, k4⟩ := foldl_load_seed_frame W (Int.tdiv W P) P 0 s1
      { nx := local_width W P 0, ny := H
        u0 := List.replicate ((local_width W P 0 + 2) * H).toNat 0
        u1 := List.replicate ((local_width W P 0 + 2) * H).toNat 0
        steps := steps, save_steps := save_steps }
    simp only [List.length_replicate] at k1 k2 k4
    exact load_last_column_seed W (Int.tdiv W P) P _ j (by rw [k1]; omega)
      (by rw [k4, k1, k2]) hj0 (by rw [k2]; exact hj)
  refine ⟨?_, key⟩
  unfold cell
  rw [(life_init_frame P 0 steps save_steps W H seeds).2.1, ind_row H (-1) j hj0 hj,
    show (-1 + 1) * H + j = j by ring]
  exact key

theorem last_column_seed_in_left_ghost_witness :
    cell (life_init 2 0 1 1 4 3 [(1, 1), (3, 2)]) (-1) 2 = 1 ∧
      rd (life_init 2 0 1 1 4 3 [(1, 1), (3, 2)]).u0 2 = 1 :=
  last_column_seed_in_left_ghost 4 2 3 1 1 (by decide) (by decide) 2 (by decide) (by decide)
    [(1, 1), (3, 2)] (by decide)

/-! ## Frame of the step engine and binary cells -/

theorem rd_step_loops_ghost (l : life_t) (g r : Int) (hg : g < 0 ∨ l.nx ≤ g) (hr0 : 0 ≤ r)
    (hr : r < l.ny) : rd (step_loops l) (ind l.ny g r) = rd l.u1 (ind l.ny g r) := by
  rw [step_loops_eq]
  apply rd_foldl_wr_of_not_mem (fun p : Nat × Nat => ind l.ny (p.1 : Int) (p.2 : Int))
    (fun p : Nat × Nat => rule l (p.1 : Int) (p.2 : Int))
  rintro ⟨a, b⟩ hmem hab
  have hm := (mem_real_cells _ _ _).mp hmem
  simp only at hm hab
  have := (ind_inj l.ny a b g r (by omega) (by omega) hr0 hr hab).1
  omega

theorem ind_neighbour_bounds (nx H i j di dj : Int) (hi0 : 0 ≤ i) (hi : i < nx) (hj0 : 0 ≤ j)
    (hj : j < H) (hdi : -1 ≤ di ∧ di ≤ 1) (hdj : -1 ≤ dj ∧ dj ≤ 1) :
    0 ≤ ind H (i + di) (j + dj) ∧ ind H (i + di) (j + dj) < (nx + 2) * H := by
  rw [ind_mod H (i + di) (j + dj) (by omega) (by omega)]
  exact ind_real_bounds nx H (i + di) _ (by omega) (by omega) (Int.emod_nonneg _ (by omega))
    (Int.emod_lt_of_pos _ (by omega))

theorem binary_wr (u : List Int) (k x : Int) (hu : ∀ v ∈ u, v = 0 ∨ v = 1)
    (hx : x = 0 ∨ x = 1) : ∀ v ∈ wr u k x, v = 0 ∨ v = 1 := by
  intro v hv
  unfold wr at hv
  split at hv
  · rcases List.mem_or_eq_of_mem_set hv with h | h
    · exact hu v h
    · rw [h]; exact hx
  · exact hu v hv

theorem binary_foldl_wr {α : Type} (f g : α → Int) (ks : List α) (u : List Int)
    (hu : ∀ v ∈ u, v = 0 ∨ v = 1) (hg : ∀ k, g k = 0 ∨ g k = 1) :
    ∀ v ∈ ks.foldl (fun u k => wr u (f k) (g k)) u, v = 0 ∨ v = 1 := by
  induction ks generalizing u with
  | nil => exact hu
  | cons k ks ih =>
    rw [List.foldl_cons]
    exact ih _ (binary_wr u (f k) (g k) hu (hg k))

theorem binary_rule (l : life_t) (i j : Int) : rule l i j = 0 ∨ rule l i j = 1 := by
  unfold rule
  split
  · exact Or.inr rfl
  · exact Or.inl rfl

theorem binary_rd (u : List Int) (hu : ∀ v ∈ u, v = 0 ∨ v = 1) (p : Int) :
    rd u p = 0 ∨ rd u p = 1 := by
  unfold rd
  split
  · rw [List.getD_eq_getElem?_getD]
    by_cases h : p.toNat < u.length
    · rw [List.getElem?_eq_getElem h, Option.getD_some]
      exact hu _ (List.getElem_mem h)
    · rw [List.getElem?_eq_none (by omega)]; exact Or.inl rfl
  · exact Or.inl rfl

theorem binary_life_step (l : life_t) (hl : binary_buffers l) : binary_buffers (life_step l) := by
  refine ⟨?_, hl.1⟩
  show ∀ v ∈ step_loops l, v = 0 ∨ v = 1
  rw [step_loops_eq]
  exact binary_foldl_wr (fun p : Nat × Nat => ind l.ny (p.1 : Int) (p.2 : Int))
    (fun p : Nat × Nat => rule l (p.1 : Int) (p.2 : Int)) _ l.u1 hl.2 (fun p => binary_rule l _ _)

theorem binary_recv_buf (u : List Int) (off cnt : Int) (msg : List Int)
    (hu : ∀ v ∈ u, v = 0 ∨ v = 1) (hmsg : ∀ v ∈ msg, v = 0 ∨ v = 1) :
    ∀ v ∈ recv_buf u off cnt msg, v = 0 ∨ v = 1 := by
  intro v hv
  obtain ⟨n, hn, rfl⟩ := List.mem_iff_getElem.mp hv
  unfold recv_buf
  rw [List.getElem_mapIdx]
  split
  · rw [List.getD_eq_getElem?_getD]
    by_cases h : (↑n - off).toNat < msg.length
    · rw [List.getElem?_eq_getElem h, Option.getD_some]
      exact hmsg _ (List.getElem_mem h)
    · rw [List.getElem?_eq_none (by omega)]; exact Or.inl rfl
  · exact hu _ (List.getElem_mem _)

theorem binary_send_buf (u : List Int) (off cnt : Int) (hu : ∀ v ∈ u, v = 0 ∨ v = 1) :
    ∀ v ∈ send_buf u off cnt, v = 0 ∨ v = 1 := by
  intro v hv
  unfold send_buf at hv
  obtain ⟨k, -, rfl⟩ := List.mem_map.mp hv
  exact binary_rd u hu _

theorem binary_exchange (ws : List life_t) (hws : ∀ w ∈ ws, binary_buffers w) :
    ∀ w ∈ exchange ws, binary_buffers w := by
  have h1 : ∀ w ∈ ws.mapIdx (fun rank l => exchange_fst ws rank l), binary_buffers w := by
    intro w hw
    obtain ⟨n, hn, rfl⟩ := List.mem_iff_getElem.mp hw
    rw [List.getElem_mapIdx]
    have hl := hws _ (List.getElem_mem (by simpa using hn : n < ws.length))
    refine ⟨?_, hl.2⟩
    apply binary_recv_buf _ _ _ _ hl.1
    apply binary_send_buf
    by_cases h : (Int.tmod ((ws.length : Int) + (n : Int) - 1) ws.length).toNat < ws.length
    · rw [List.getD_eq_getElem?_getD, List.getElem?_eq_getElem h, Option.getD_some]
      exact (hws _ (List.getElem_mem h)).1
    · rw [List.getD_eq_getElem?_getD, List.getElem?_eq_none (by omega), Option.getD_none]
      exact hl.1
  intro w hw
  unfold exchange at hw
  simp only at hw
  obtain ⟨n, hn, rfl⟩ := List.mem_iff_getElem.mp hw
  rw [List.getElem_mapIdx]
  have hn' : n < (ws.mapIdx (fun rank l => exchange_fst ws rank l)).length := by
    simpa using hn
  have hl := h1 _ (List.getElem_mem hn')
  refine ⟨?_, hl.2⟩
  apply binary_recv_buf _ _ _ _ hl.1
  apply binary_send_buf
  generalize (Int.tmod ((n : Int) + 1)
    ((ws.mapIdx (fun rank l => exchange_fst ws rank l)).length : Int)).toNat = m
  by_cases h : m < (ws.mapIdx (fun rank l => exchange_fst ws rank l)).length
  · rw [List.getD_eq_getElem?_getD, List.getElem?_eq_getElem h, Option.getD_some]
    exact (h1 _ (List.getElem_mem h)).1
  · rw [List.getD_eq_getElem?_getD, List.getElem?_eq_none (by omega), Option.getD_none]
    exact hl.1

theorem binary_load_seed (W avg size rank : Int) (l : life_t) (s : Int × Int)
    (hl : binary_buffers l) : binary_buffers (load_seed W avg size rank l s) := by
  unfold load_seed
  simp only
  split
  · exact ⟨binary_wr _ _ _ hl.1 (Or.inr rfl), hl.2⟩
  · exact hl

theorem binary_life_init (size rank steps save_steps W H : Int) (seeds : List (Int × Int)) :
    binary_buffers (life_init size rank steps save_steps W H seeds) := by
  unfold life_init
  simp only
  generalize hl0 : ({ nx := local_width W size rank, ny := H
                      u0 := List.replicate ((local_width W size rank + 2) * H).toNat 0
                      u1 := List.replicate ((local_width W size rank + 2) * H).toNat 0
                      steps := steps, save_steps := save_steps } : life_t) = l0
  have h0 : binary_buffers l0 := by
    subst hl0
    exact ⟨fun v hv => Or.inl (List.eq_of_mem_replicate hv),
      fun v hv => Or.inl (List.eq_of_mem_replicate hv)⟩
  clear hl0
  induction seeds generalizing l0 with
  | nil => exact h0
  | cons s ss ih =>
    rw [List.foldl_cons]
    exact ih _ (binary_load_seed _ _ _ _ l0 s h0)

/-! ## Where the seed loader puts the seeds -/

theorem base_facts (W P : Int) (hP : 2 ≤ P) (hPW : P ≤ W) :
    1 ≤ Int.tdiv W P ∧ Int.tdiv W P * P ≤ W ∧ W < Int.tdiv W P * P + P ∧
      Int.tdiv W P * 2 ≤ Int.tdiv W P * P ∧
      Int.tdiv W P * (P - 1) = Int.tdiv W P * P - Int.tdiv W P := by
  have hd : Int.tdiv W P = W / P := Int.tdiv_eq_ediv (by omega) (by omega)
  rw [hd]
  have hq : 1 ≤ W / P := by
    have := Int.ediv_le_ediv (by omega : 0 < P) hPW
    rwa [Int.ediv_self (by omega)] at this
  have h1 := Int.ediv_add_emod W P
  have h2 := Int.emod_nonneg W (by omega : P ≠ 0)
  have h3 := Int.emod_lt_of_pos W (by omega : 0 < P)
  have h4 : P * (W / P) = W / P * P := by ring
  refine ⟨hq, by omega, by omega,
    Int.mul_le_mul_of_nonneg_left hP (by omega), by ring⟩

theorem local_width_cases (W P r : Int) (hP : 2 ≤ P) (hPW : P ≤ W) (hr0 : 0 ≤ r) :
    (r < P - 1 → local_width W P r = Int.tdiv W P) ∧
      (r = P - 1 → local_width W P r = W - Int.tdiv W P * P + Int.tdiv W P) := by
  refine ⟨fun h => local_width_interior W P r hr0 h, fun h => ?_⟩
  rw [h, local_width_last W P (by omega), Int.tmod_eq_emod (by omega) (by omega)]
  have hd : Int.tdiv W P = W / P := Int.tdiv_eq_ediv (by omega) (by omega)
  rw [hd]
  have h1 := Int.ediv_add_emod W P
  have h4 : P * (W / P) = W / P * P := by ring
  omega

theorem map_col_real (W P r a i : Int) (hP : 2 ≤ P) (hPW : P ≤ W) (hr0 : 0 ≤ r) (hr : r < P)
    (ha0 : 0 ≤ a) (ha : a < local_width W P r) (hi0 : 0 ≤ i) (hi : i < W) :
    map_col W (Int.tdiv W P) P r (local_width W P r) i = a ↔ i = Int.tdiv W P * r + a := by
  obtain ⟨b1, b2, b3, b4, b5⟩ := base_facts W P hP hPW
  obtain ⟨w1, w2⟩ := local_width_cases W P r hP hPW hr0
  unfold map_col
  generalize local_width W P r = nx at *
  generalize hb : Int.tdiv W P = b at *
  by_cases h1 : i = W - 1 ∧ r = 0
  · rw [if_pos h1]
    obtain ⟨rfl, rfl⟩ := h1
    have := w1 (by omega)
    rw [mul_zero]
    constructor <;> intro h <;> omega
  · rw [if_neg h1]
    by_cases h2 : i = 0 ∧ r = P - 1
    · rw [if_pos h2]
      obtain ⟨rfl, rfl⟩ := h2
      rw [b5]
      constructor <;> intro h <;> omega
    · rw [if_neg h2]
      constructor <;> intro h <;> omega

theorem map_col_left_ghost (W P r i : Int) (hP : 2 ≤ P) (hPW : P ≤ W)
    (hb : 2 ≤ Int.tdiv W P) (hr0 : 0 ≤ r) (hr : r < P) (hi0 : 0 ≤ i) (hi : i < W) :
    map_col W (Int.tdiv W P) P r (local_width W P r) i = -1 ↔
      i = if r = 0 then W - 1 else Int.tdiv W P * r - 1 := by
  obtain ⟨b1, b2, b3, b4, b5⟩ := base_facts W P hP hPW
  obtain ⟨w1, w2⟩ := local_width_cases W P r hP hPW hr0
  unfold map_col
  generalize local_width W P r = nx at *
  generalize Int.tdiv W P = b at *
  by_cases h1 : i = W - 1 ∧ r = 0
  · rw [if_pos h1, if_pos h1.2]
    simp [h1.1]
  · rw [if_neg h1]
    by_cases h2 : i = 0 ∧ r = P - 1
    · rw [if_pos h2, if_neg (by omega)]
      obtain ⟨rfl, rfl⟩ := h2
      have := w2 rfl
      rw [b5]
      constructor <;> intro h <;> omega
    · rw [if_neg h2]
      by_cases h0 : r = 0
      · subst h0
        rw [if_pos rfl, mul_zero]
        constructor <;> intro h <;> omega
      · rw [if_neg h0]
        constructor <;> intro h <;> omega

theorem map_col_right_ghost (W P r i : Int) (hP : 2 ≤ P) (hPW : P ≤ W)
    (hb : 2 ≤ Int.tdiv W P) (hr0 : 0 ≤ r) (hr : r < P) (hi0 : 0 ≤ i) (hi : i < W) :
    map_col W (Int.tdiv W P) P r (local_width W P r) i = local_width W P r ↔
      i = if r = P - 1 then 0 else Int.tdiv W P * (r + 1) := by
  obtain ⟨b1, b2, b3, b4, b5⟩ := base_facts W P hP hPW
  obtain ⟨w1, w2⟩ := local_width_cases W P r hP hPW hr0
  unfold map_col
  generalize local_width W P r = nx at *
  generalize Int.tdiv W P = b at *
  have e : b * (r + 1) = b * r + b := by ring
  rw [e]
  by_cases h1 : i = W - 1 ∧ r = 0
  · rw [if_pos h1, if_neg (by omega)]
    obtain ⟨rfl, rfl⟩ := h1
    have := w1 (by omega)
    rw [mul_zero]
    constructor <;> intro h <;> omega
  · rw [if_neg h1]
    by_cases h2 : i = 0 ∧ r = P - 1
    · rw [if_pos h2, if_pos h2.2]
      simp [h2.1]
    · rw [if_neg h2]
      by_cases hl : r = P - 1
      · rw [if_pos hl]
        have := w2 hl
        subst hl
        rw [b5]
        constructor <;> intro h <;> omega
      · rw [if_neg hl]
        have := w1 (by omega)
        by_cases h0 : r = 0
        · subst h0
          rw [mul_zero]
          constructor <;> intro h <;> omega
        · constructor <;> intro h <;> omega

theorem cell_life_init_at (P r steps save_steps W H : Int) (seeds : List (Int × Int))
    (hseeds : ∀ s ∈ seeds, 0 ≤ s.1 ∧ s.1 < W ∧ 0 ≤ s.2 ∧ s.2 < H)
    (a x j : Int) (ha0 : -1 ≤ a) (ha : a ≤ local_width W P r) (hj0 : 0 ≤ j) (hj : j < H)
    (hmap : ∀ i : Int, 0 ≤ i → i < W →
      (map_col W (Int.tdiv W P) P r (local_width W P r) i = a ↔ i = x)) :
    cell (life_init P r steps save_steps W H seeds) a j =
      if (x, j) ∈ seeds then 1 else 0 := by
  rw [cell_life_init P r steps save_steps W H seeds (fun s hs => (hseeds s hs).2.2) a j ha0 ha
    hj0 hj]
  apply if_congr _ rfl rfl
  constructor
  · rintro ⟨s, hs, h1, h2⟩
    obtain ⟨s0, s1, -, -⟩ := hseeds s hs
    have : s = (x, j) := Prod.ext ((hmap s.1 s0 s1).mp h1) h2
    rw [← this]; exact hs
  · intro h
    obtain ⟨s0, s1, -, -⟩ := hseeds _ h
    exact ⟨_, h, (hmap x s0 s1).mpr rfl, rfl⟩

theorem length_init_all (P : Nat) (steps save_steps W H : Int) (seeds : List (Int × Int)) :
    (init_all P steps save_steps W H seeds).length = P := by
  simp [init_all]

theorem worker_init_all (P : Nat) (steps save_steps W H : Int) (seeds : List (Int × Int))
    (r : Nat) (hr : r < P) :
    worker (init_all P steps save_steps W H seeds) r =
      life_init P r steps save_steps W H seeds := by
  simp [worker, init_all, List.getD_eq_getElem?_getD, List.getElem?_map,
    List.getElem?_range hr]

theorem offset_init_all (P : Nat) (steps save_steps W H : Int) (seeds : List (Int × Int))
    (r : Nat) (hr : r < P) :
    offset (init_all P steps save_steps W H seeds) r = Int.tdiv W P * r := by
  induction r with
  | zero => simp [offset_zero]
  | succ k ih =>
    rw [offset_succ _ k (by rw [length_init_all]; omega), ih (by omega),
      worker_init_all P steps save_steps W H seeds k (by omega),
      (life_init_frame P k steps save_steps W H seeds).1,
      local_width_interior W P k (by omega) (by omega)]
    push_cast; ring

theorem total_width_init_all (P : Nat) (steps save_steps W H : Int) (seeds : List (Int × Int))
    (hP : 2 ≤ P) (hPW : (P : Int) ≤ W) :
    total_width (init_all P steps save_steps W H seeds) = W := by
  obtain ⟨n, rfl⟩ : ∃ n : Nat, P = n + 1 := ⟨P - 1, by omega⟩
  have h := offset_succ (init_all (n + 1) steps save_steps W H seeds) n
    (by rw [length_init_all]; omega)
  have hl := offset_length (init_all (n + 1) steps save_steps W H seeds)
  rw [length_init_all] at hl
  rw [← hl, h, offset_init_all (n + 1) steps save_steps W H seeds n (by omega),
    worker_init_all (n + 1) steps save_steps W H seeds n (by omega),
    (life_init_frame _ _ steps save_steps W H seeds).1,
    (local_width_cases W ((n + 1 : Nat) : Int) n (by omega) hPW (by omega)).2
      (by push_cast; omega)]
  obtain ⟨-, -, -, -, b5⟩ := base_facts W ((n + 1 : Nat) : Int) (by omega) hPW
  have e : ((n + 1 : Nat) : Int) - 1 = (n : Int) := by push_cast; omega
  rw [e] at b5
  omega

/-! ## Patterns under the step engine -/

theorem pattern_at (l : life_t) (f : Int → Int → Int) (hp : pattern l f) (i r : Int)
    (hi0 : -1 ≤ i) (hi : i ≤ l.nx) (hr0 : 0 ≤ r) (hr : r < l.ny) : cell l i r = f i r := by
  have := hp (i + 1).toNat (List.mem_range.mpr (by omega)) r.toNat
    (List.mem_range.mpr (by omega))
  rwa [Int.toNat_of_nonneg (by omega), Int.toNat_of_nonneg hr0,
    show i + 1 - 1 = i by ring] at this

theorem pattern_of_cells (l : life_t) (f : Int → Int → Int)
    (h : ∀ i r : Int, -1 ≤ i → i ≤ l.nx → 0 ≤ r → r < l.ny → cell l i r = f i r) :
    pattern l f := by
  intro i hi r hr
  rw [List.mem_range] at hi hr
  exact h _ _ (by omega) (by omega) (by omega) (by omega)

theorem real_pattern_at (l : life_t) (f : Int → Int → Int) (hp : real_pattern l f) (i r : Int)
    (hi0 : 0 ≤ i) (hi : i < l.nx) (hr0 : 0 ≤ r) (hr : r < l.ny) : cell l i r = f i r := by
  have := hp i.toNat (List.mem_range.mpr (by omega)) r.toNat (List.mem_range.mpr (by omega))
  rwa [Int.toNat_of_nonneg hi0, Int.toNat_of_nonneg hr0] at this

theorem real_pattern_of_cells (l : life_t) (f : Int → Int → Int)
    (h : ∀ i r : Int, 0 ≤ i → i < l.nx → 0 ≤ r → r < l.ny → cell l i r = f i r) :
    real_pattern l f := by
  intro i hi r hr
  rw [List.mem_range] at hi hr
  exact h _ _ (by omega) (by omega) (by omega) (by omega)

theorem inactive_ghosts_dead_at (l : life_t) (h : inactive_ghosts_dead l) (r : Int)
    (hr0 : 0 ≤ r) (hr : r < l.ny) :
    rd l.u1 (ind l.ny (-1) r) = 0 ∧ rd l.u1 (ind l.ny l.nx r) = 0 := by
  have := h r.toNat (List.mem_range.mpr (by omega))
  rwa [Int.toNat_of_nonneg hr0] at this

theorem row_prev_cases (H y : Int) (hy0 : 0 ≤ y) (hy : y < H) :
    (y = 0 ∧ (y - 1) % H = H - 1) ∨ (0 < y ∧ (y - 1) % H = y - 1) := by
  by_cases h : y = 0
  · left
    refine ⟨h, ?_⟩
    rw [h, ← Int.add_emod_self, Int.emod_eq_of_lt (by omega) (by omega)]
    omega
  · right
    exact ⟨by omega, Int.emod_eq_of_lt (by omega) (by omega)⟩

theorem row_next_cases (H y : Int) (hy0 : 0 ≤ y) (hy : y < H) :
    (y = H - 1 ∧ (y + 1) % H = 0) ∨ (y < H - 1 ∧ (y + 1) % H = y + 1) := by
  by_cases h : y = H - 1
  · left
    refine ⟨h, ?_⟩
    rw [h, show H - 1 + 1 = H by ring, Int.emod_self]
  · right
    exact ⟨by omega, Int.emod_eq_of_lt (by omega) (by omega)⟩

theorem neighbours_of_product (l : life_t) (H : Int) (a b : Int → Int) (hl : is_grid H l)
    (hp : ∀ i r : Int, -1 ≤ i → i ≤ l.nx → 0 ≤ r → r < H → cell l i r = a i * b r)
    (i y : Int) (hi0 : 0 ≤ i) (hi : i < l.nx) (hy0 : 0 ≤ y) (hy : y < H) :
    neighbours l i y =
      (a (i - 1) + a i + a (i + 1)) * (b ((y - 1) % H) + b y + b ((y + 1) % H)) -
        a i * b y := by
  have hny : l.ny = H := hl.2.1
  have hc : ∀ di dj : Int, -1 ≤ di → di ≤ 1 → -1 ≤ dj → dj ≤ 1 →
      rd l.u0 (ind l.ny (i + di) (y + dj)) = a (i + di) * b ((y + dj) % H) := by
    intro di dj h1 h2 h3 h4
    have := hp (i + di) ((y + dj) % H) (by omega) (by omega) (Int.emod_nonneg _ (by omega))
      (Int.emod_lt_of_pos _ (by omega))
    rw [← this]
    have e := cell_row_mod l (i + di) (y + dj) (by omega) (by omega)
    rw [hny] at e
    exact e
  have h0 : ∀ di : Int, -1 ≤ di → di ≤ 1 →
      rd l.u0 (ind l.ny (i + di) y) = a (i + di) * b y := by
    intro di h1 h2
    exact hp (i + di) y (by omega) (by omega) hy0 hy
  unfold neighbours
  have e1 := hc 1 1 (by omega) (by omega) (by omega) (by omega)
  have e2 := hc 0 1 (by omega) (by omega) (by omega) (by omega)
  have e3 := hc (-1) (-1) (by omega) (by omega) (by omega) (by omega)
  have e4 := hc 0 (-1) (by omega) (by omega) (by omega) (by omega)
  have e5 := hc (-1) 1 (by omega) (by omega) (by omega) (by omega)
  have e6 := hc 1 (-1) (by omega) (by omega) (by omega) (by omega)
  have e7 := h0 1 (by omega) (by omega)
  have e8 := h0 (-1) (by omega) (by omega)
  simp only [add_zero, ← sub_eq_add_neg] at e1 e2 e3 e4 e5 e6 e7 e8
  rw [e1, e2, e3, e4, e5, e6, e7, e8]
  ring

theorem cell_life_step_of_product (l : life_t) (H : Int) (a b : Int → Int) (hl : is_grid H l)
    (hp : ∀ i r : Int, -1 ≤ i → i ≤ l.nx → 0 ≤ r → r < H → cell l i r = a i * b r)
    (i y : Int) (hi0 : 0 ≤ i) (hi : i < l.nx) (hy0 : 0 ≤ y) (hy : y < H) (A B : Int)
    (hA : a (i - 1) + a i + a (i + 1) = A)
    (hB : b ((y - 1) % H) + b y + b ((y + 1) % H) = B) :
    cell (life_step l) i y =
      if (A * B - a i * b y = 3 ∧ a i * b y = 0) ∨
          ((A * B - a i * b y = 3 ∨ A * B - a i * b y = 2) ∧ a i * b y = 1)
      then 1 else 0 := by
  rw [cell_life_step H l hl i y hi0 hi hy0 hy]
  unfold rule
  rw [neighbours_of_product l H a b hl hp i y hi0 hi hy0 hy, hA, hB]
  have := hp i y (by omega) (by omega) hy0 hy
  unfold cell at this
  rw [this]

theorem pattern_life_step (l : life_t) (H : Int) (f : Int → Int → Int) (hl : is_grid H l)
    (hd : inactive_ghosts_dead l)
    (hf : ∀ r : Int, 0 ≤ r → r < H → f (-1) r = 0 ∧ f l.nx r = 0)
    (hreal : ∀ i r : Int, 0 ≤ i → i < l.nx → 0 ≤ r → r < H → cell (life_step l) i r = f i r) :
    pattern (life_step l) f := by
  have hny : l.ny = H := hl.2.1
  apply pattern_of_cells
  intro i r hi0 hi hr0 hr
  have hi' : i ≤ l.nx := hi
  have hr' : r < l.ny := hr
  by_cases h1 : i = -1
  · subst h1
    rw [(hf r hr0 (by omega)).1]
    exact (rd_step_loops_ghost l (-1) r (Or.inl (by omega)) hr0 hr').trans
      (inactive_ghosts_dead_at l hd r hr0 hr').1
  · by_cases h2 : i = l.nx
    · rw [h2, (hf r hr0 (by omega)).2]
      exact (rd_step_loops_ghost l l.nx r (Or.inr (le_refl _)) hr0 hr').trans
        (inactive_ghosts_dead_at l hd r hr0 hr').2
    · exact hreal i r (by omega) (by omega) hr0 (by omega)

theorem inactive_ghosts_dead_life_step (l : life_t) (H : Int) (f : Int → Int → Int)
    (hl : is_grid H l) (hp : pattern l f)
    (hf : ∀ r : Int, 0 ≤ r → r < H → f (-1) r = 0 ∧ f l.nx r = 0) :
    inactive_ghosts_dead (life_step l) := by
  have hny : l.ny = H := hl.2.1
  have hnx := hl.1
  intro r hr
  rw [List.mem_range] at hr
  have hr' : (r : Int) < l.ny := by
    have : (life_step l).ny = l.ny := rfl
    omega
  have h1 := pattern_at l f hp (-1) r (le_refl _) (by omega) (by omega) hr'
  have h2 := pattern_at l f hp l.nx r (by omega) (le_refl _) (by omega) hr'
  rw [(hf r (by omega) (by omega)).1] at h1
  rw [(hf r (by omega) (by omega)).2] at h2
  exact ⟨h1, h2⟩

/-! ## The block and the blinker -/

theorem block_step (l : life_t) (H c j : Int) (hl : is_grid H l) (hH : 3 ≤ H) (hj0 : 0 ≤ j)
    (hj : j < H) (hp : pattern l (block_pattern c j H)) (i y : Int) (hi0 : 0 ≤ i)
    (hi : i < l.nx) (hy0 : 0 ≤ y) (hy : y < H) :
    cell (life_step l) i y = block_pattern c j H i y := by
  have hny : l.ny = H := hl.2.1
  have hprod : ∀ i r : Int, -1 ≤ i → i ≤ l.nx → 0 ≤ r → r < H →
      cell l i r = at_two c (c + 1) i * at_two j ((j + 1) % H) r :=
    fun i r h1 h2 h3 h4 => pattern_at l _ hp i r h1 h2 h3 (by omega)
  obtain ⟨A, hA, hAf⟩ : ∃ A, at_two c (c + 1) (i - 1) + at_two c (c + 1) i +
      at_two c (c + 1) (i + 1) = A ∧
      ((at_two c (c + 1) i = 1 ∧ A = 2) ∨ (at_two c (c + 1) i = 0 ∧ (A = 0 ∨ A = 1))) := by
    refine ⟨_, rfl, ?_⟩
    unfold at_two
    split_ifs <;> omega
  obtain ⟨B, hB, hBf⟩ : ∃ B, at_two j ((j + 1) % H) ((y - 1) % H) + at_two j ((j + 1) % H) y +
      at_two j ((j + 1) % H) ((y + 1) % H) = B ∧
      ((at_two j ((j + 1) % H) y = 1 ∧ B = 2) ∨
        (at_two j ((j + 1) % H) y = 0 ∧ (B = 0 ∨ B = 1 ∨ B = 2))) := by
    refine ⟨_, rfl, ?_⟩
    unfold at_two
    rcases row_prev_cases H y hy0 hy with ⟨p1, p2⟩ | ⟨p1, p2⟩ <;>
    rcases row_next_cases H y hy0 hy with ⟨q1, q2⟩ | ⟨q1, q2⟩ <;>
    rcases row_next_cases H j hj0 hj with ⟨s1, s2⟩ | ⟨s1, s2⟩ <;>
    simp only [p2, q2, s2] <;>
    split_ifs <;> first | omega | simp_all
  rw [cell_life_step_of_product l H _ _ hl hprod i y hi0 hi hy0 hy A B hA hB]
  unfold block_pattern
  generalize at_two c (c + 1) i = a0 at hAf ⊢
  generalize at_two j ((j + 1) % H) y = b0 at hBf ⊢
  rcases hAf with ⟨rfl, rfl⟩ | ⟨rfl, rfl | rfl⟩ <;>
  rcases hBf with ⟨rfl, rfl⟩ | ⟨rfl, rfl | rfl | rfl⟩ <;>
  decide

theorem row_blinker_step (l : life_t) (H c j : Int) (hl : is_grid H l) (hH : 3 ≤ H)
    (hj0 : 0 ≤ j) (hj : j < H) (hp : pattern l (row_blinker c j)) (i y : Int) (hi0 : 0 ≤ i)
    (hi : i < l.nx) (hy0 : 0 ≤ y) (hy : y < H) :
    cell (life_step l) i y = column_blinker c j H i y := by
  have hny : l.ny = H := hl.2.1
  have hprod : ∀ i r : Int, -1 ≤ i → i ≤ l.nx → 0 ≤ r → r < H →
      cell l i r = at_three (c - 1) c (c + 1) i * at_one j r :=
    fun i r h1 h2 h3 h4 => pattern_at l _ hp i r h1 h2 h3 (by omega)
  obtain ⟨A, hA, hAf⟩ : ∃ A, at_three (c - 1) c (c + 1) (i - 1) + at_three (c - 1) c (c + 1) i +
      at_three (c - 1) c (c + 1) (i + 1) = A ∧
      ((at_one c i = 1 ∧ at_three (c - 1) c (c + 1) i = 1 ∧ A = 3) ∨
        (at_one c i = 0 ∧ at_three (c - 1) c (c + 1) i = 1 ∧ A = 2) ∨
        (at_one c i = 0 ∧ at_three (c - 1) c (c + 1) i = 0 ∧ (A = 0 ∨ A = 1))) := by
    refine ⟨_, rfl, ?_⟩
    unfold at_three at_one
    split_ifs <;> omega
  obtain ⟨B, hB, hBf⟩ : ∃ B, at_one j ((y - 1) % H) + at_one j y + at_one j ((y + 1) % H) = B ∧
      ((at_three ((j - 1) % H) j ((j + 1) % H) y = 1 ∧ at_one j y = 1 ∧ B = 1) ∨
        (at_three ((j - 1) % H) j ((j + 1) % H) y = 1 ∧ at_one j y = 0 ∧ B = 1) ∨
        (at_three ((j - 1) % H) j ((j + 1) % H) y = 0 ∧ at_one j y = 0 ∧ B = 0)) := by
    refine ⟨_, rfl, ?_⟩
    unfold at_three at_one
    rcases row_prev_cases H y hy0 hy with ⟨p1, p2⟩ | ⟨p1, p2⟩ <;>
    rcases row_next_cases H y hy0 hy with ⟨q1, q2⟩ | ⟨q1, q2⟩ <;>
    rcases row_prev_cases H j hj0 hj with ⟨t1, t2⟩ | ⟨t1, t2⟩ <;>
    rcases row_next_cases H j hj0 hj with ⟨s1, s2⟩ | ⟨s1, s2⟩ <;>
    simp only [p2, q2, s2, t2] <;>
    split_ifs <;> omega
  rw [cell_life_step_of_product l H _ _ hl hprod i y hi0 hi hy0 hy A B hA hB]
  unfold column_blinker
  generalize at_three (c - 1) c (c + 1) i = a0 at hAf ⊢
  generalize at_one c i = ta at hAf ⊢
  generalize at_one j y = b0 at hBf ⊢
  generalize at_three ((j - 1) % H) j ((j + 1) % H) y = tb at hBf ⊢
  rcases hAf with ⟨rfl, rfl, rfl⟩ | ⟨rfl, rfl, rfl⟩ | ⟨rfl, rfl, rfl | rfl⟩ <;>
  rcases hBf with ⟨rfl, rfl, rfl⟩ | ⟨rfl, rfl, rfl⟩ | ⟨rfl, rfl, rfl⟩ <;>
  decide

theorem column_blinker_step (l : life_t) (H c j : Int) (hl : is_grid H l) (hH : 4 ≤ H)
    (hj0 : 0 ≤ j) (hj : j < H) (hp : pattern l (column_blinker c j H)) (i y : Int)
    (hi0 : 0 ≤ i) (hi : i < l.nx) (hy0 : 0 ≤ y) (hy : y < H) :
    cell (life_step l) i y = row_blinker c j i y := by
  have hny : l.ny = H := hl.2.1
  have hprod : ∀ i r : Int, -1 ≤ i → i ≤ l.nx → 0 ≤ r → r < H →
      cell l i r = at_one c i * at_three ((j - 1) % H) j ((j + 1) % H) r :=
    fun i r h1 h2 h3 h4 => pattern_at l _ hp i r h1 h2 h3 (by omega)
  obtain ⟨A, hA, hAf⟩ : ∃ A, at_one c (i - 1) + at_one c i + at_one c (i + 1) = A ∧
      ((at_three (c - 1) c (c + 1) i = 1 ∧ at_one c i = 1 ∧ A = 1) ∨
        (at_three (c - 1) c (c + 1) i = 1 ∧ at_one c i = 0 ∧ A = 1) ∨
        (at_three (c - 1) c (c + 1) i = 0 ∧ at_one c i = 0 ∧ A = 0)) := by
    refine ⟨_, rfl, ?_⟩
    unfold at_three at_one
    split_ifs <;> omega
  obtain ⟨B, hB, hBf⟩ : ∃ B, at_three ((j - 1) % H) j ((j + 1) % H) ((y - 1) % H) +
      at_three ((j - 1) % H) j ((j + 1) % H) y +
      at_three ((j - 1) % H) j ((j + 1) % H) ((y + 1) % H) = B ∧
      ((at_one j y = 1 ∧ at_three ((j - 1) % H) j ((j + 1) % H) y = 1 ∧ B = 3) ∨
        (at_one j y = 0 ∧ at_three ((j - 1) % H) j ((j + 1) % H) y = 1 ∧ B = 2) ∨
        (at_one j y = 0 ∧ at_three ((j - 1) % H) j ((j + 1) % H) y = 0 ∧
          (B = 0 ∨ B = 1 ∨ B = 2))) := by
    refine ⟨_, rfl, ?_⟩
    unfold at_three at_one
    rcases row_prev_cases H y hy0 hy with ⟨p1, p2⟩ | ⟨p1, p2⟩ <;>
    rcases row_next_cases H y hy0 hy with ⟨q1, q2⟩ | ⟨q1, q2⟩ <;>
    rcases row_prev_cases H j hj0 hj with ⟨t1, t2⟩ | ⟨t1, t2⟩ <;>
    rcases row_next_cases H j hj0 hj with ⟨s1, s2⟩ | ⟨s1, s2⟩ <;>
    simp only [p2, q2, s2, t2] <;>
    split_ifs <;> first | omega | simp_all
  rw [cell_life_step_of_product l H _ _ hl hprod i y hi0 hi hy0 hy A B hA hB]
  unfold row_blinker
  generalize at_one c i = a0 at hAf ⊢
  generalize at_three (c - 1) c (c + 1) i = ta at hAf ⊢
  generalize at_three ((j - 1) % H) j ((j + 1) % H) y = b0 at hBf ⊢
  generalize at_one j y = tb at hBf ⊢
  rcases hAf with ⟨rfl, rfl, rfl⟩ | ⟨rfl, rfl, rfl⟩ | ⟨rfl, rfl, rfl⟩ <;>
  rcases hBf with ⟨rfl, rfl, rfl⟩ | ⟨rfl, rfl, rfl⟩ | ⟨rfl, rfl, rfl | rfl | rfl⟩ <;>
  decide

theorem block_ghosts (c j H nx : Int) (hc1 : 1 ≤ c) (hc2 : c + 1 ≤ nx - 2) (r : Int) :
    block_pattern c j H (-1) r = 0 ∧ block_pattern c j H nx r = 0 := by
  have h1 : ¬ ((-1 : Int) = c ∨ (-1 : Int) = c + 1) := by omega
  have h2 : ¬ (nx = c ∨ nx = c + 1) := by omega
  simp [block_pattern, at_two, h1, h2]

theorem column_blinker_ghosts (c j H nx : Int) (hc1 : 1 ≤ c - 1) (hc2 : c + 1 ≤ nx - 2)
    (r : Int) : column_blinker c j H (-1) r = 0 ∧ column_blinker c j H nx r = 0 := by
  have h1 : ¬ ((-1 : Int) = c) := by omega
  have h2 : ¬ (nx = c) := by omega
  simp [column_blinker, at_one, h1, h2]

theorem block_iterate (l : life_t) (H c j : Int) (hl : is_grid H l) (hH : 3 ≤ H)
    (hc1 : 1 ≤ c) (hc2 : c + 1 ≤ l.nx - 2) (hj0 : 0 ≤ j) (hj : j < H)
    (hp : pattern l (block_pattern c j H)) (hd : inactive_ghosts_dead l) (n : Nat) :
    is_grid H (Nat.iterate life_step n l) ∧ (Nat.iterate life_step n l).nx = l.nx ∧
      pattern (Nat.iterate life_step n l) (block_pattern c j H) ∧
      inactive_ghosts_dead (Nat.iterate life_step n l) := by
  induction n with
  | zero => exact ⟨hl, rfl, hp, hd⟩
  | succ k ih =>
    obtain ⟨g, enx, p, d⟩ := ih
    rw [Function.iterate_succ_apply']
    have hf : ∀ r : Int, 0 ≤ r → r < H →
        block_pattern c j H (-1) r = 0 ∧
          block_pattern c j H (Nat.iterate life_step k l).nx r = 0 :=
      fun r _ _ => block_ghosts c j H _ hc1 (by rw [enx]; exact hc2) r
    exact ⟨is_grid_life_step H _ g, enx,
      pattern_life_step _ H _ g d hf
        (fun i r hi0 hi hr0 hr => block_step _ H c j g hH hj0 hj p i r hi0 hi hr0 hr),
      inactive_ghosts_dead_life_step _ H _ g p hf⟩

/-! ## Verified properties: scenarios, patterns, invariants and seed placement -/

/-- C11: for the global grid 4x4, `P = 2` and the seeds `(1,1)`, `(1,2)`,
`(1,3)`, after `life_init` on both ranks and two rounds, the live real cells
of rank 0 are exactly the local cells `(1,1)`, `(1,2)`, `(1,3)` and the real
columns of rank 1 are entirely dead. -/
theorem blinker_scenario_generation_two :
    real_pattern (worker (main 2 2 1 4 4 scenario_seeds) 0)
        (fun i r => if i = 1 ∧ (r = 1 ∨ r = 2 ∨ r = 3) then 1 else 0) ∧
      real_pattern (worker (main 2 2 1 4 4 scenario_seeds) 1) (fun _ _ => 0) := by
  decide

/-- C12 (as stated) fails: after one round of the 4x4 scenario, the real cell
`(1, 0)` of rank 0 is dead and its real cell `(0, 2)` is alive, so the live
real cells are not those of column 1 at rows 0, 1 and 2. -/
theorem blinker_scenario_generation_one_counterexample :
    cell (worker (main 2 1 1 4 4 scenario_seeds) 0) 1 0 = 0 ∧
      cell (worker (main 2 1 1 4 4 scenario_seeds) 0) 0 2 = 1 ∧
      ¬ real_pattern (worker (main 2 1 1 4 4 scenario_seeds) 0)
        (fun i r => if i = 1 ∧ (r = 0 ∨ r = 1 ∨ r = 2) then 1 else 0) := by
  decide

/-- C12 (amended): after one round of the 4x4 scenario, the live real cells of
rank 0 are exactly `(0, 2)` and `(1, 2)`, and the only live real cell of rank 1
is `(0, 2)`: the blinker lies in row 2 of the global columns 0, 1 and 2. -/
theorem blinker_scenario_generation_one :
    real_pattern (worker (main 2 1 1 4 4 scenario_seeds) 0)
        (fun i r => if (i = 0 ∨ i = 1) ∧ r = 2 then 1 else 0) ∧
      real_pattern (worker (main 2 1 1 4 4 scenario_seeds) 1)
        (fun i r => if i = 0 ∧ r = 2 then 1 else 0) := by
  decide

/-- C13 (as stated) fails for `H = 2`: on a grid of width 4 and height 2 whose
only live cells are the block of the columns 1, 2 and of the rows 0, 1, one
`life_step` changes the real columns (each cell of the block counts 5 live
neighbours on the torus of height 2). -/
theorem block_height_two_counterexample :
    is_grid 2 block_grid_low ∧ pattern block_grid_low (block_pattern 1 0 2) ∧
      cell (life_step block_grid_low) 1 0 = 0 ∧
      ¬ real_pattern (life_step block_grid_low) (cell block_grid_low) := by
  decide

/-- C13 (amended): on a worker grid of height `H ≥ 3` whose only live cells,
ghost columns included, are the block `(c, j)`, `(c+1, j)`, `(c, j+1)`,
`(c+1, j+1)` (rows modulo `H`) with `1 ≤ c` and `c + 1 ≤ local_width - 2`, one
`life_step` leaves the real columns as they were, and, when the ghost columns
of the inactive buffer are dead too, so does any number of steps. -/
theorem block_still_life (l : life_t) (H c j : Int) (hl : is_grid H l) (hH : 3 ≤ H)
    (hc1 : 1 ≤ c) (hc2 : c + 1 ≤ l.nx - 2) (hj0 : 0 ≤ j) (hj : j < H)
    (hp : pattern l (block_pattern c j H)) :
    real_pattern (life_step l) (cell l) ∧
      (inactive_ghosts_dead l →
        ∀ n : Nat, real_pattern (Nat.iterate life_step n l) (cell l)) := by
  have hny : l.ny = H := hl.2.1
  constructor
  · apply real_pattern_of_cells
    intro i r hi0 hi hr0 hr
    have hr' : r < H := by rw [← hny]; exact hr
    rw [block_step l H c j hl hH hj0 hj hp i r hi0 hi hr0 hr']
    exact (pattern_at l _ hp i r (by omega) (by have : i < l.nx := hi; omega) hr0
      (by omega)).symm
  · intro hd n
    obtain ⟨g, enx, p, -⟩ := block_iterate l H c j hl hH hc1 hc2 hj0 hj hp hd n
    apply real_pattern_of_cells
    intro i r hi0 hi hr0 hr
    rw [pattern_at _ _ p i r (by omega) (by omega) hr0 hr]
    rw [enx] at hi
    rw [g.2.1] at hr
    exact (pattern_at l _ hp i r (by omega) (by omega) hr0 (by omega)).symm

theorem block_still_life_witness :
    real_pattern (life_step block_grid) (cell block_grid) ∧
      (inactive_ghosts_dead block_grid →
        ∀ n : Nat, real_pattern (Nat.iterate life_step n block_grid) (cell block_grid)) :=
  block_still_life block_grid 3 1 0 (by decide) (by decide) (by decide) (by decide)
    (by decide) (by decide) (by decide)

/-- C14 (as stated) fails for `H = 3`: on a grid of width 5 and height 3 whose
only live cells are the blinker `(1,1)`, `(2,1)`, `(3,1)`, with dead ghost
columns in both buffers, the second `life_step` does not restore the three
cells (the column blinker fills the whole height and the columns 1, 2, 3
become alive). -/
theorem blinker_height_three_counterexample :
    is_grid 3 blinker_grid_low ∧ pattern blinker_grid_low (row_blinker 2 1) ∧
      inactive_ghosts_dead blinker_grid_low ∧
      real_pattern (life_step blinker_grid_low) (column_blinker 2 1 3) ∧
      cell (life_step (life_step blinker_grid_low)) 1 0 = 1 ∧
      ¬ real_pattern (life_step (life_step blinker_grid_low)) (row_blinker 2 1) := by
  decide

/-- C14 (amended): on a worker grid of height `H ≥ 3` whose only live cells,
ghost columns included, are `(c-1, j)`, `(c, j)`, `(c+1, j)` with `1 ≤ c - 1`
and `c + 1 ≤ local_width - 2`, one `life_step` makes the live real cells
exactly `(c, j-1)`, `(c, j)`, `(c, j+1)` (rows modulo `H`); and when `H ≥ 4`
and the ghost columns of the inactive buffer are dead, a second `life_step`
makes the live real cells exactly the original three again. -/
theorem blinker_oscillation (l : life_t) (H c j : Int) (hl : is_grid H l) (hH : 3 ≤ H)
    (hc1 : 1 ≤ c - 1) (hc2 : c + 1 ≤ l.nx - 2) (hj0 : 0 ≤ j) (hj : j < H)
    (hp : pattern l (row_blinker c j)) :
    real_pattern (life_step l) (column_blinker c j H) ∧
      (4 ≤ H → inactive_ghosts_dead l →
        real_pattern (life_step (life_step l)) (row_blinker c j)) := by
  have hny : l.ny = H := hl.2.1
  have hreal : ∀ i r : Int, 0 ≤ i → i < l.nx → 0 ≤ r → r < H →
      cell (life_step l) i r = column_blinker c j H i r :=
    fun i r hi0 hi hr0 hr => row_blinker_step l H c j hl hH hj0 hj hp i r hi0 hi hr0 hr
  constructor
  · apply real_pattern_of_cells
    intro i r hi0 hi hr0 hr
    exact hreal i r hi0 hi hr0 (by rw [← hny]; exact hr)
  · intro hH4 hd
    have hp1 : pattern (life_step l) (column_blinker c j H) :=
      pattern_life_step l H _ hl hd
        (fun r _ _ => column_blinker_ghosts c j H l.nx hc1 hc2 r) hreal
    apply real_pattern_of_cells
    intro i r hi0 hi hr0 hr
    exact column_blinker_step (life_step l) H c j (is_grid_life_step H l hl) hH4 hj0 hj hp1
      i r hi0 hi hr0 (by rw [← hny]; exact hr)

theorem blinker_oscillation_witness :
    real_pattern (life_step blinker_grid) (column_blinker 2 1 4) ∧
      ((4 : Int) ≤ 4 → inactive_ghosts_dead blinker_grid →
        real_pattern (life_step (life_step blinker_grid)) (row_blinker 2 1)) :=
  blinker_oscillation blinker_grid 4 2 1 (by decide) (by decide) (by decide) (by decide)
    (by decide) (by decide) (by decide)

/-- C15: every entry of both buffers is 0 or 1 after `life_init`; the
property is preserved by `life_step` and by `exchange`; and `life_step` leaves
0 or 1 in each real cell of the new active buffer whatever the old active
buffer held. -/
theorem binary_invariant (size rank steps save_steps W H : Int) (seeds : List (Int × Int))
    (l : life_t) (hl : binary_buffers l) (ws : List life_t)
    (hws : ∀ w ∈ ws, binary_buffers w) (k : life_t) (K i j : Int) (hk : is_grid K k)
    (hi0 : 0 ≤ i) (hi : i < k.nx) (hj0 : 0 ≤ j) (hj : j < K) :
    binary_buffers (life_init size rank steps save_steps W H seeds) ∧
      binary_buffers (life_step l) ∧ (∀ w ∈ exchange ws, binary_buffers w) ∧
      (cell (life_step k) i j = 0 ∨ cell (life_step k) i j = 1) := by
  refine ⟨binary_life_init size rank steps save_steps W H seeds, binary_life_step l hl,
    binary_exchange ws hws, ?_⟩
  rw [cell_life_step K k hk i j hi0 hi hj0 hj]
  exact binary_rule k i j

theorem binary_invariant_witness :
    binary_buffers (life_init 2 0 1 1 4 4 scenario_seeds) ∧
      binary_buffers (life_step example_grid) ∧
      (∀ w ∈ exchange example_ring, binary_buffers w) ∧
      (cell (life_step non_binary_grid) 0 1 = 0 ∨ cell (life_step non_binary_grid) 0 1 = 1) :=
  binary_invariant 2 0 1 1 4 4 scenario_seeds example_grid (by decide) example_ring
    (by decide) non_binary_grid 2 0 1 (by decide) (by decide) (by decide) (by decide)
    (by decide)

/-- C16: after `life_step` the new inactive buffer is the old active buffer,
both ghost columns of the new active buffer hold the values which the ghost
columns of the old inactive buffer held, and the width and the height are
unchanged. -/
theorem life_step_frame (l : life_t) :
    (life_step l).u1 = l.u0 ∧
      (∀ j : Int, 0 ≤ j → j < l.ny →
        cell (life_step l) (-1) j = rd l.u1 (ind l.ny (-1) j) ∧
          cell (life_step l) l.nx j = rd l.u1 (ind l.ny l.nx j)) ∧
      (life_step l).u0.length = l.u1.length ∧
      (life_step l).nx = l.nx ∧ (life_step l).ny = l.ny := by
  refine ⟨rfl, fun j hj0 hj => ⟨?_, ?_⟩, length_step_loops l, rfl, rfl⟩
  · exact rd_step_loops_ghost l (-1) j (Or.inl (by omega)) hj0 hj
  · exact rd_step_loops_ghost l l.nx j (Or.inr (le_refl _)) hj0 hj

/-- C17: for a real cell `(i, j)` of a grid of local width `nx ≥ 1` and height
`H ≥ 1`, each of the nine positions `ind(i+di, j+dj)`, `di, dj` in
`{-1, 0, 1}`, computed with C's truncating remainder, lies in
`[0, (nx+2)*H)`. -/
theorem life_step_indices_in_bounds (nx H i j di dj : Int)
    (hi0 : 0 ≤ i) (hi : i < nx) (hj0 : 0 ≤ j) (hj : j < H) (hdi : -1 ≤ di ∧ di ≤ 1)
    (hdj : -1 ≤ dj ∧ dj ≤ 1) :
    0 ≤ ind H (i + di) (j + dj) ∧ ind H (i + di) (j + dj) < (nx + 2) * H :=
  ind_neighbour_bounds nx H i j di dj hi0 hi hj0 hj hdi hdj

theorem life_step_indices_in_bounds_witness :
    0 ≤ ind 3 (0 + -1) (0 + -1) ∧ ind 3 (0 + -1) (0 + -1) < (2 + 2) * 3 :=
  life_step_indices_in_bounds 2 3 0 0 (-1) (-1) (by decide) (by decide) (by decide)
    (by decide) (by decide) (by decide)

/-- C18: for `P ≥ 2`, `W ≥ P` and seeds with `0 ≤ col < W`, `0 ≤ row < H`,
after `life_init` on every rank the local widths sum to `W`, the real columns
concatenated in rank order hold 1 exactly at the seeds, and on rank `r` the
real cell of local column `a` is 1 exactly when `((W/P)*r + a, row)` is a
seed. -/
theorem seeds_reach_owner (P : Nat) (W H steps save_steps : Int) (seeds : List (Int × Int))
    (hP : 2 ≤ P) (hPW : (P : Int) ≤ W)
    (hseeds : ∀ s ∈ seeds, 0 ≤ s.1 ∧ s.1 < W ∧ 0 ≤ s.2 ∧ s.2 < H) :
    total_width (init_all P steps save_steps W H seeds) = W ∧
      (∀ x y : Int, 0 ≤ x → x < W → 0 ≤ y → y < H →
        global_cell (init_all P steps save_steps W H seeds) x y =
          if (x, y) ∈ seeds then 1 else 0) ∧
      (∀ r : Nat, r < P → ∀ a y : Int,
        0 ≤ a → a < (worker (init_all P steps save_steps W H seeds) r).nx → 0 ≤ y → y < H →
        cell (worker (init_all P steps save_steps W H seeds) r) a y =
          if (Int.tdiv W P * r + a, y) ∈ seeds then 1 else 0) := by
  have hW := total_width_init_all P steps save_steps W H seeds hP hPW
  have hworker : ∀ r : Nat, r < P → ∀ a y : Int,
      0 ≤ a → a < (worker (init_all P steps save_steps W H seeds) r).nx → 0 ≤ y → y < H →
      cell (worker (init_all P steps save_steps W H seeds) r) a y =
        if (Int.tdiv W P * r + a, y) ∈ seeds then 1 else 0 := by
    intro r hr a y ha0 ha hy0 hy
    rw [worker_init_all P steps save_steps W H seeds r hr] at ha ⊢
    rw [(life_init_frame P r steps save_steps W H seeds).1] at ha
    exact cell_life_init_at P r steps save_steps W H seeds hseeds a _ y (by omega) (by omega)
      hy0 hy (fun i hi0 hi =>
        map_col_real W P r a i (by omega) hPW (by omega) (by omega) ha0 ha hi0 hi)
  refine ⟨hW, ?_, hworker⟩
  intro x y hx0 hx hy0 hy
  have hnn : ∀ l ∈ init_all P steps save_steps W H seeds, 0 ≤ l.nx := by
    intro l hl
    unfold init_all at hl
    obtain ⟨r, hr, rfl⟩ := List.mem_map.mp hl
    rw [(life_init_frame P r steps save_steps W H seeds).1]
    have := one_le_local_width W P r (by omega) hPW (by omega)
      (by have := List.mem_range.mp hr; omega)
    omega
  obtain ⟨r, a, hr, ha0, ha, rfl⟩ := exists_rank_of_column _ hnn x hx0 (by rw [hW]; exact hx)
  rw [length_init_all] at hr
  rw [global_cell_offset _ hnn r (by rw [length_init_all]; exact hr) a y ha0 ha,
    hworker r hr a y ha0 ha hy0 hy, offset_init_all P steps save_steps W H seeds r hr]

theorem seeds_reach_owner_witness :
    total_width (init_all 2 1 1 5 3 [(0, 0), (4, 2), (2, 1)]) = 5 ∧
      (∀ x y : Int, 0 ≤ x → x < 5 → 0 ≤ y → y < 3 →
        global_cell (init_all 2 1 1 5 3 [(0, 0), (4, 2), (2, 1)]) x y =
          if (x, y) ∈ [((0 : Int), (0 : Int)), (4, 2), (2, 1)] then 1 else 0) ∧
      (∀ r : Nat, r < 2 → ∀ a y : Int,
        0 ≤ a → a < (worker (init_all 2 1 1 5 3 [(0, 0), (4, 2), (2, 1)]) r).nx →
        0 ≤ y → y < 3 →
        cell (worker (init_all 2 1 1 5 3 [(0, 0), (4, 2), (2, 1)]) r) a y =
          if (Int.tdiv 5 (2 : Nat) * r + a, y) ∈ [((0 : Int), (0 : Int)), (4, 2), (2, 1)]
          then 1 else 0) :=
  seeds_reach_owner 2 5 3 1 1 [(0, 0), (4, 2), (2, 1)] (by decide) (by decide) (by decide)

/-- C19: for `P ≥ 2`, `W/P ≥ 2` and seeds with `0 ≤ col < W`, `0 ≤ row < H`,
after `life_init` on every rank the left ghost column of every worker `r`
equals the rightmost real column of worker `(P + r - 1) mod P` and its right
ghost column equals the leftmost real column of worker `(r + 1) mod P`. -/
theorem ghosts_consistent_after_init (P : Nat) (W H steps save_steps : Int)
    (seeds : List (Int × Int)) (hP : 2 ≤ P) (hb : 2 ≤ Int.tdiv W P)
    (hseeds : ∀ s ∈ seeds, 0 ≤ s.1 ∧ s.1 < W ∧ 0 ≤ s.2 ∧ s.2 < H) :
    ghosts_consistent (init_all P steps save_steps W H seeds) := by
  have hPW : (P : Int) ≤ W := by
    by_contra hlt
    have hW0 : 0 ≤ W ∨ W < 0 := le_or_lt 0 W
    rcases hW0 with h0 | h0
    · rw [Int.tdiv_eq_ediv h0 (by omega), Int.ediv_eq_zero_of_lt h0 (by omega)] at hb
      omega
    · have h1 := Int.neg_tdiv (-W) (P : Int)
      have h2 := Int.tdiv_nonneg (by omega : 0 ≤ -W) (by omega : (0 : Int) ≤ P)
      rw [neg_neg] at h1
      omega
  obtain ⟨b1, b2, b3, b4, b5⟩ := base_facts W P (by omega) hPW
  intro r hr j hj
  rw [List.mem_range, length_init_all] at hr
  have hleft : (P + r - 1) % P < P := Nat.mod_lt _ (by omega)
  have hright : (r + 1) % P < P := Nat.mod_lt _ (by omega)
  rw [length_init_all, worker_init_all P steps save_steps W H seeds r hr,
    worker_init_all P steps save_steps W H seeds _ hleft,
    worker_init_all P steps save_steps W H seeds _ hright]
  rw [List.mem_range, worker_init_all P steps save_steps W H seeds r hr,
    (life_init_frame P r steps save_steps W H seeds).2.1] at hj
  have hj0 : (0 : Int) ≤ (j : Int) := Int.ofNat_zero_le _
  have hjH : (j : Int) < H := by omega
  rw [(life_init_frame P r steps save_steps W H seeds).1,
    (life_init_frame P _ steps save_steps W H seeds).1]
  have hwr := one_le_local_width W P r (by omega) hPW (by omega) (by omega)
  have hwl := one_le_local_width W P ((P + r - 1) % P : Nat) (by omega) hPW (by omega)
    (by omega)
  have hwn := one_le_local_width W P ((r + 1) % P : Nat) (by omega) hPW (by omega)
    (by omega)
  constructor
  · -- the left ghost column
    rw [cell_life_init_at P r steps save_steps W H seeds hseeds (-1)
        (if (r : Int) = 0 then W - 1 else Int.tdiv W P * r - 1) j (le_refl _) (by omega) hj0 hjH
        (fun i hi0 hi => map_col_left_ghost W P r i (by omega) hPW hb (by omega) (by omega)
          hi0 hi),
      cell_life_init_at P ((P + r - 1) % P : Nat) steps save_steps W H seeds hseeds _
        (Int.tdiv W P * ((P + r - 1) % P : Nat) +
          (local_width W P ((P + r - 1) % P : Nat) - 1)) j (by omega) (by omega) hj0 hjH
        (fun i hi0 hi => map_col_real W P _ _ i (by omega) hPW (by omega) (by omega)
          (by omega) (by omega) hi0 hi)]
    apply if_congr _ rfl rfl
    apply Eq.to_iff
    congr 2
    cases r with
    | zero =>
      have e : (P + 0 - 1) % P = P - 1 := Nat.mod_eq_of_lt (by omega)
      have e2 : ((P - 1 : Nat) : Int) = (P : Int) - 1 := by omega
      rw [e, e2, if_pos (by rfl),
        (local_width_cases W P ((P : Int) - 1) (by omega) hPW (by omega)).2 rfl, b5]
      omega
    | succ k =>
      have e : (P + (k + 1) - 1) % P = k := by
        rw [show P + (k + 1) - 1 = P + k by omega, Nat.add_mod_left, Nat.mod_eq_of_lt (by omega)]
      have e3 : Int.tdiv W P * ((k + 1 : Nat) : Int) = Int.tdiv W P * (k : Int) + Int.tdiv W P := by
        push_cast; ring
      rw [e, if_neg (by omega), e3,
        (local_width_cases W P (k : Int) (by omega) hPW (by omega)).1 (by omega)]
      omega
  · -- the right ghost column
    rw [cell_life_init_at P r steps save_steps W H seeds hseeds (local_width W P r)
        (if (r : Int) = (P : Int) - 1 then 0 else Int.tdiv W P * ((r : Int) + 1)) j (by omega)
        (le_refl _) hj0 hjH
        (fun i hi0 hi => map_col_right_ghost W P r i (by omega) hPW hb (by omega) (by omega)
          hi0 hi),
      cell_life_init_at P ((r + 1) % P : Nat) steps save_steps W H seeds hseeds 0
        (Int.tdiv W P * ((r + 1) % P : Nat) + 0) j (by omega) (by omega) hj0 hjH
        (fun i hi0 hi => map_col_real W P _ _ i (by omega) hPW (by omega) (by omega)
          (le_refl _) (by omega) hi0 hi)]
    apply if_congr _ rfl rfl
    apply Eq.to_iff
    congr 2
    by_cases hl : r + 1 = P
    · have e : (r + 1) % P = 0 := by rw [hl, Nat.mod_self]
      rw [e, if_pos (by omega)]
      simp
    · have e : (r + 1) % P = r + 1 := Nat.mod_eq_of_lt (by omega)
      rw [e, if_neg (by omega)]
      push_cast; ring

theorem ghosts_consistent_after_init_witness :
    ghosts_consistent (init_all 2 1 1 5 3 [(0, 0), (4, 2), (2, 1)]) :=
  ghosts_consistent_after_init 2 5 3 1 1 [(0, 0), (4, 2), (2, 1)] (by decide) (by decide)
    (by decide)

end LifeMpi
